import Mathlib

/-!
Detective Quest: the clue ledger, the suspect index and the explorer

A shallow embedding of `algoritmos_avancados.c`.

* A C string is the list of its bytes before the terminating NUL (`CStr`), each byte
  being the value of an `unsigned char`.
* The fixed buffers `char x[MAX_STR]` are filled with
  `strncpy(dst, src, MAX_STR-1); dst[MAX_STR-1] = 0`, which keeps the first 127 bytes
  (`strncpy_max`).
* Linked structures become inductive types: `PistaBST` (the ledger), `Sala` (the map),
  a chain of `HashItem` is a list whose head is the bucket head, and the table
  `HashItem *hashTable[HASH_SIZE]` is a list of buckets.
* Standard input is a list of bytes consumed by `fgets`; standard output is the list
  of the lines printed (`Out`), one constructor per `printf` of the source.
* `int` results (`existePista`, `contarPistasParaSuspeito`) are natural numbers: the
  first is 0 or 1, the second is bounded by the number of nodes of the ledger.
-/

namespace DetectiveQuest

/-! ## Strings -/

/-- Bytes of a C string, terminator excluded. -/
abbrev CStr := List Nat

/-- The size of every text buffer of the program (`#define MAX_STR 128`). -/
def MAX_STR : Nat := 128

/-- The number of buckets (`#define HASH_SIZE 31`). -/
def HASH_SIZE : Nat := 31

/-- UTF-8 encoding of one code point; the source file is UTF-8 text, so this gives the
bytes of its string literals. -/
def utf8 (c : Nat) : List Nat :=
  if c < 0x80 then [c]
  else if c < 0x800 then [0xC0 + c / 64, 0x80 + c % 64]
  else if c < 0x10000 then [0xE0 + c / 4096, 0x80 + (c / 64) % 64, 0x80 + c % 64]
  else [0xF0 + c / 262144, 0x80 + (c / 4096) % 64, 0x80 + (c / 64) % 64, 0x80 + c % 64]

/-- The bytes of a string literal of the source. -/
def lit (s : String) : CStr :=
  s.toList.flatMap (fun c => utf8 c.toNat)

/-- The C library `strcmp`: the sign of the difference of the first pair of bytes that
differ (compared as `unsigned char`), a missing byte being the terminator 0. -/
def strcmp : CStr → CStr → Int
  | [], [] => 0
  | [], _ :: _ => -1
  | _ :: _, [] => 1
  | a :: as, b :: bs => if a < b then -1 else if b < a then 1 else strcmp as bs

/-- The idiom `strncpy(dst, src, MAX_STR-1); dst[MAX_STR-1] = 0`: the destination
holds the first `MAX_STR - 1` bytes of the source. -/
def strncpy_max (src : CStr) : CStr :=
  src.take (MAX_STR - 1)

/-- The C string held by a buffer: its bytes up to the first NUL. -/
def cstr (buf : List Nat) : CStr :=
  buf.takeWhile (fun b => b ≠ 0)

/-- The C library `isspace` in the "C" locale: space, `\t`, `\n`, `\v`, `\f`, `\r`. -/
def isspace (c : Nat) : Bool :=
  c = 32 ∨ (9 ≤ c ∧ c ≤ 13)

/-- The C library `tolower` in the "C" locale. -/
def tolower (c : Nat) : Nat :=
  if 65 ≤ c ∧ c ≤ 90 then c + 32 else c

/-- Reading loop of `fgets`: at most `k` bytes, stopping after a newline. Gives the
bytes read and the rest of the stream. -/
def fgetsAux : Nat → List Nat → List Nat × List Nat
  | 0, s => ([], s)
  | _ + 1, [] => ([], [])
  | k + 1, c :: s =>
    if c = 10 then ([c], s)
    else ((c :: (fgetsAux k s).1), (fgetsAux k s).2)

/-- The C library `fgets(buf, n, stdin)`: `none` (NULL) when the stream is at its end,
otherwise the bytes stored in the buffer (at most `n - 1`, through the first newline)
and the rest of the stream. -/
def fgets (n : Nat) (stdin : List Nat) : Option (List Nat × List Nat) :=
  match stdin with
  | [] => none
  | _ :: _ => some (fgetsAux (n - 1) stdin)

/-! ## Output -/

/-- The lines the program prints, one constructor per `printf`. -/
inductive Out
  | bemVindo
  | instrucao
  | exploracaoIniciada
  | comandos
  | voceEstaNaSala (nome : CStr)
  | voceEncontrou (pista : CStr)
  | jaFaziaParte
  | semPistasAparentes
  | escolhaPrompt
  | optouEncerrar
  | semSalaEsquerda
  | semSalaDireita
  | comandoInvalido
  | exploracaoEncerrada
  | pistaColetada (pista : CStr)
  | jaColetou (pista : CStr)
  | itemPista (pista : CStr)
  | pistasInsuficientes
  | cabecalhoPistas
  | acusarPrompt
  | erroLeitura
  | pistasQueVinculam (acusado : CStr) (count : Nat)
  | acusacaoSustentada (acusado : CStr)
  | acusacaoFraca (count : Nat)
  | obrigado
  deriving DecidableEq

/-! ## The suspect index (hash table with separate chaining) -/

/-- One step of the loop of `hash_djb2` on `unsigned long` of 64 bits:
`hash = ((hash << 5) + hash) + c`. -/
def hash_passo (hash c : Nat) : Nat :=
  (((hash <<< 5) % 2 ^ 64 + hash) % 2 ^ 64 + c % 256) % 2 ^ 64

/-- Source: `hash_djb2` (lines 91-97). -/
def hash_djb2 (str : CStr) : Nat :=
  str.foldl hash_passo 5381

/-- An entry of a chain; `prox` is the tail of the list that holds it. -/
structure HashItem where
  chave : CStr
  suspeito : CStr
  deriving DecidableEq

/-- The table `HashItem *hashTable[HASH_SIZE]`: bucket `i` is the chain at index `i`. -/
abbrev HashTable := List (List HashItem)

/-- The table after `for (i...) hashTable[i] = NULL` in `main`. -/
def tabelaVazia : HashTable :=
  List.replicate HASH_SIZE []

/-- Source: `criarHashItem` (lines 99-109). -/
def criarHashItem (chave suspeito : CStr) : HashItem :=
  { chave := strncpy_max chave, suspeito := strncpy_max suspeito }

/-- Source: `inserirNaHash` (lines 111-118): the new entry becomes the head of its
bucket. -/
def inserirNaHash (hashTable : HashTable) (pista suspeito : CStr) : HashTable :=
  let h := hash_djb2 pista % HASH_SIZE
  let novo := criarHashItem pista suspeito
  hashTable.set h (novo :: hashTable.getD h [])

/-- The `while (curr)` loop of `encontrarSuspeito` on one chain. -/
def buscarNaLista : List HashItem → CStr → Option CStr
  | [], _ => none
  | curr :: prox, pista =>
    if strcmp curr.chave pista = 0 then some curr.suspeito
    else buscarNaLista prox pista

/-- Source: `encontrarSuspeito` (lines 120-128); `none` is the NULL result. -/
def encontrarSuspeito (hashTable : HashTable) (pista : CStr) : Option CStr :=
  let h := hash_djb2 pista % HASH_SIZE
  buscarNaLista (hashTable.getD h []) pista

/-- The number of entries stored in all the chains. -/
def totalEntradas (hashTable : HashTable) : Nat :=
  (hashTable.map List.length).sum

/-! ## The clue ledger (binary search tree) -/

/-- The ledger: `nil` is the NULL pointer. -/
inductive PistaBST
  | nil
  | node (pista : CStr) (esq dir : PistaBST)
  deriving DecidableEq

/-- Source: `inserirPista` (lines 149-169). The pointer `pista` is taken to be a valid
string (a NULL pointer is treated by the source like the empty text). Gives the new
root and the lines printed. -/
def inserirPista (raiz : PistaBST) (pista : CStr) : PistaBST × List Out :=
  if pista.length = 0 then (raiz, [])
  else
    match raiz with
    | .nil => (.node (strncpy_max pista) .nil .nil, [Out.pistaColetada pista])
    | .node p esq dir =>
      if strcmp pista p = 0 then (.node p esq dir, [Out.jaColetou pista])
      else if strcmp pista p < 0 then
        (.node p (inserirPista esq pista).1 dir, (inserirPista esq pista).2)
      else
        (.node p esq (inserirPista dir pista).1, (inserirPista dir pista).2)

/-- Source: `listarPistasInOrder` (lines 171-176): the lines printed. The function
only reads the tree. -/
def listarPistasInOrder : PistaBST → List Out
  | .nil => []
  | .node p esq dir => listarPistasInOrder esq ++ [Out.itemPista p] ++ listarPistasInOrder dir

/-- The texts of the nodes of a ledger, in the order of the in-order traversal. -/
def textos : PistaBST → List CStr
  | .nil => []
  | .node p esq dir => textos esq ++ p :: textos dir

/-- The number of nodes of a ledger. -/
def numNos : PistaBST → Nat
  | .nil => 0
  | .node _ esq dir => numNos esq + 1 + numNos dir

/-- Source: `existePista` (lines 178-184); the result is the `int` 0 or 1. -/
def existePista : PistaBST → CStr → Nat
  | .nil, _ => 0
  | .node p esq dir, pista =>
    if strcmp pista p = 0 then 1
    else if strcmp pista p < 0 then existePista esq pista
    else existePista dir pista

/-- Source: `contarPistasParaSuspeito` (lines 189-196). -/
def contarPistasParaSuspeito : PistaBST → HashTable → CStr → Nat
  | .nil, _, _ => 0
  | .node p esq dir, hashTable, suspeito =>
    let count :=
      match encontrarSuspeito hashTable p with
      | some s => if strcmp s suspeito = 0 then 1 else 0
      | none => 0
    count + contarPistasParaSuspeito esq hashTable suspeito
      + contarPistasParaSuspeito dir hashTable suspeito

/-- The ledger after a sequence of calls `raiz = inserirPista(raiz, p)`. -/
def inserirTodas (raiz : PistaBST) (pistas : List CStr) : PistaBST :=
  pistas.foldl (fun r p => (inserirPista r p).1) raiz

/-! ## The room map -/

/-- A room of the map; `null` is the NULL pointer. -/
inductive Sala
  | null
  | mk (nome : CStr) (esq dir : Sala)
  deriving DecidableEq

/-- Source: `criarSala` (lines 133-143). -/
def criarSala (nome : CStr) : Sala :=
  .mk (strncpy_max nome) .null .null

/-- The two assignments `s->esq = esq; s->dir = dir`. -/
def ligar (s esq dir : Sala) : Sala :=
  match s with
  | .null => .null
  | .mk nome _ _ => .mk nome esq dir

def escritorio : Sala := criarSala (lit "Escritório")

def quarto : Sala := criarSala (lit "Quarto Principal")

def cozinha : Sala := criarSala (lit "Cozinha")

def jardim : Sala := criarSala (lit "Jardim")

def biblioteca : Sala := ligar (criarSala (lit "Biblioteca")) escritorio quarto

def salaJantar : Sala := ligar (criarSala (lit "Sala de Jantar")) cozinha jardim

/-- The map wired by `main` (lines 355-368). -/
def hall : Sala := ligar (criarSala (lit "Hall")) biblioteca salaJantar

/-- The suspect index filled by `main` (lines 371-382). -/
def hashTableMain : HashTable :=
  let t0 := tabelaVazia
  let t1 := inserirNaHash t0 (lit "pegada de bota molhada") (lit "Joao")
  let t2 := inserirNaHash t1 (lit "fio de seda vermelho") (lit "Maria")
  let t3 := inserirNaHash t2 (lit "marca de copo com monograma") (lit "Carlos")
  let t4 := inserirNaHash t3 (lit "lâmina com resquício de sangue") (lit "Carlos")
  let t5 := inserirNaHash t4 (lit "brinco de pérola quebrado") (lit "Maria")
  let t6 := inserirNaHash t5 (lit "bilhete rasgado com iniciais C.R.") (lit "Carlos")
  inserirNaHash t6 (lit "sementes pisoteadas") (lit "Joao")

/-! ## The explorer -/

/-- The rule chain of `explorarSalas` (lines 215-232): the content of the buffer
`pistaEncontrada` for the room called `nome`. -/
def regraPista (nome : CStr) : CStr :=
  if strcmp nome (lit "Hall") = 0 then strncpy_max (lit "pegada de bota molhada")
  else if strcmp nome (lit "Biblioteca") = 0 then strncpy_max (lit "fio de seda vermelho")
  else if strcmp nome (lit "Sala de Jantar") = 0 then
    strncpy_max (lit "marca de copo com monograma")
  else if strcmp nome (lit "Cozinha") = 0 then
    strncpy_max (lit "lâmina com resquício de sangue")
  else if strcmp nome (lit "Quarto Principal") = 0 then
    strncpy_max (lit "brinco de pérola quebrado")
  else if strcmp nome (lit "Escritório") = 0 then
    strncpy_max (lit "bilhete rasgado com iniciais C.R.")
  else if strcmp nome (lit "Jardim") = 0 then strncpy_max (lit "sementes pisoteadas")
  else []

/-- The clue check of `explorarSalas` (lines 234-244): the ledger after it and the
lines printed. -/
def coletar (bst : PistaBST) (pistaEncontrada : CStr) : PistaBST × List Out :=
  if pistaEncontrada.length > 0 then
    if existePista bst pistaEncontrada = 0 then
      ((inserirPista bst pistaEncontrada).1,
        Out.voceEncontrou pistaEncontrada :: (inserirPista bst pistaEncontrada).2)
    else
      (bst, [Out.voceEncontrou pistaEncontrada, Out.jaFaziaParte])
  else
    (bst, [Out.semPistasAparentes])

/-- The scan of the buffer `escolha` (lines 250-253): the first byte before the NUL
that is not white space, in lower case, or 0 when there is none. -/
def lerComando : List Nat → Nat
  | [] => 0
  | x :: xs =>
    if x = 0 then 0
    else if !isspace x then tolower x
    else lerComando xs

/-- The variables of `explorarSalas` that change, with the stream and the output. -/
structure Exploracao where
  atual : Sala
  bst : PistaBST
  stdin : List Nat
  saida : List Out
  deriving DecidableEq

/-- One pass through the body of `while (atual)` (lines 211-271) at the room
`nome, esq, dir`, giving `true` when the loop goes on and `false` on `break`, with
the state after the pass and the lines printed by it. -/
def iteracao (nome : CStr) (esq dir : Sala) (bst : PistaBST) (stdin : List Nat) :
    Bool × Exploracao :=
  let atual := Sala.mk nome esq dir
  let r := coletar bst (regraPista nome)
  let saida := Out.voceEstaNaSala nome :: r.2 ++ [Out.escolhaPrompt]
  match fgets 8 stdin with
  | none => (false, ⟨atual, r.1, stdin, saida⟩)
  | some (escolha, resto) =>
    let c := lerComando escolha
    if c = 115 then (false, ⟨atual, r.1, resto, saida ++ [Out.optouEncerrar]⟩)
    else if c = 101 then
      match esq with
      | .null => (true, ⟨atual, r.1, resto, saida ++ [Out.semSalaEsquerda]⟩)
      | .mk _ _ _ => (true, ⟨esq, r.1, resto, saida⟩)
    else if c = 100 then
      match dir with
      | .null => (true, ⟨atual, r.1, resto, saida ++ [Out.semSalaDireita]⟩)
      | .mk _ _ _ => (true, ⟨dir, r.1, resto, saida⟩)
    else (true, ⟨atual, r.1, resto, saida ++ [Out.comandoInvalido]⟩)

/-- The loop `while (atual)` with a bound on the number of passes; `none` when the
bound is reached before the loop ends. -/
def explorarLoop : Nat → Sala → PistaBST → List Nat → Option Exploracao
  | 0, _, _, _ => none
  | _ + 1, .null, bst, stdin => some ⟨.null, bst, stdin, []⟩
  | n + 1, .mk nome esq dir, bst, stdin =>
    let p := iteracao nome esq dir bst stdin
    if p.1 then
      (explorarLoop n p.2.atual p.2.bst p.2.stdin).map
        (fun f => { f with saida := p.2.saida ++ f.saida })
    else some p.2

/-- Source: `explorarSalas` (lines 203-275). Every pass that does not leave the loop
consumes at least one byte of the stream, so `stdin.length + 1` passes are enough.
The table is a parameter the body never reads. -/
def explorarSalas (raiz : Sala) (bstColetadas : PistaBST) (_hashTable : HashTable)
    (stdin : List Nat) : Option Exploracao :=
  (explorarLoop (stdin.length + 1) raiz bstColetadas stdin).map
    (fun f => { f with
      saida := Out.exploracaoIniciada :: Out.comandos :: f.saida ++ [Out.exploracaoEncerrada] })

/-! ## The verdict -/

/-- The name in the buffer `acusado` after the removal of the newline
(lines 297-299). -/
def removerNewline (acusado : CStr) : CStr :=
  if acusado.length > 0 ∧ acusado.getLast? = some 10 then acusado.dropLast else acusado

/-- Source: `verificarSuspeitoFinal` (lines 281-311): the rest of the stream and the
lines printed. -/
def verificarSuspeitoFinal (bstColetadas : PistaBST) (hashTable : HashTable)
    (stdin : List Nat) : List Nat × List Out :=
  match bstColetadas with
  | .nil => (stdin, [Out.pistasInsuficientes])
  | .node _ _ _ =>
    let saida := Out.cabecalhoPistas :: listarPistasInOrder bstColetadas ++ [Out.acusarPrompt]
    match fgets MAX_STR stdin with
    | none => (stdin, saida ++ [Out.erroLeitura])
    | some (buf, resto) =>
      let acusado := removerNewline (cstr buf)
      let count := contarPistasParaSuspeito bstColetadas hashTable acusado
      (resto, saida ++ [Out.pistasQueVinculam acusado count,
        if count ≥ 2 then Out.acusacaoSustentada acusado else Out.acusacaoFraca count])

/-- Source: `main` (lines 344-406): everything printed on the input `stdin`. -/
def main (stdin : List Nat) : Option (List Out) :=
  (explorarSalas hall .nil hashTableMain stdin).map
    (fun e =>
      Out.bemVindo :: Out.instrucao :: e.saida
        ++ (verificarSuspeitoFinal e.bst hashTableMain e.stdin).2 ++ [Out.obrigado])

/-- The ordering invariant of the ledger: at every node the texts of the left subtree
compare below the node's text, the texts of the right subtree do not compare below it,
and the node's text is a non-empty content of a `MAX_STR` buffer. -/
def Ordenada : PistaBST → Prop
  | .nil => True
  | .node p esq dir =>
    (∀ x ∈ textos esq, strcmp x p < 0) ∧ (∀ x ∈ textos dir, strcmp p x ≤ 0) ∧
      0 < p.length ∧ p.length ≤ 127 ∧ Ordenada esq ∧ Ordenada dir

/-- A text of 128 bytes (`'a'` repeated), one byte more than a buffer keeps. -/
def textoLongo : CStr :=
  List.replicate 128 97

/-- The table after a sequence of calls `inserirNaHash(hashTable, chave, suspeito)`,
the oldest first. -/
def inserirTodasNaHash (hashTable : HashTable) (ops : List (CStr × CStr)) : HashTable :=
  ops.foldl (fun t op => inserirNaHash t op.1 op.2) hashTable

/-- The prepend-only association list of the specification: every insert puts its
pair in front. -/
def listaAssociativa (ops : List (CStr × CStr)) : List (CStr × CStr) :=
  ops.foldl (fun l op => op :: l) []

/-- Lookup in the association list of the specification: the suspect of the first
pair, from the front, whose key is equal to `k` byte for byte, or absent. -/
def buscarAssociativa : List (CStr × CStr) → CStr → Option CStr
  | [], _ => none
  | (chave, suspeito) :: resto, k =>
    if chave = k then some suspeito else buscarAssociativa resto k

/-- The names of the rooms announced in an output, in the order of the visits. -/
def salasVisitadas : List Out → List CStr
  | [] => []
  | Out.voceEstaNaSala nome :: resto => nome :: salasVisitadas resto
  | _ :: resto => salasVisitadas resto

/-- What is observed of a session of `main`: the rooms visited, the room where the
exploration ended, the listing of the ledger, the count for the accused and the last
line of the verdict. -/
def observar (stdin : List Nat) (acusado : CStr) :
    Option (List CStr × Sala × List CStr × Nat × Option Out) :=
  (explorarSalas hall .nil hashTableMain stdin).map
    (fun e => (salasVisitadas e.saida, e.atual, textos e.bst,
      contarPistasParaSuspeito e.bst hashTableMain acusado,
      (verificarSuspeitoFinal e.bst hashTableMain e.stdin).2.getLast?))

/-- A name of 127 bytes (`'a'` repeated), the most a buffer keeps. -/
def nome127 : CStr :=
  List.replicate 127 97

/-- A ledger of the two clues `"c"` and `"d"`. -/
def ledgerDuasPistas : PistaBST :=
  inserirTodas .nil [[99], [100]]

/-- A table that gives both clues of `ledgerDuasPistas` the suspect `nome127`. -/
def tabelaDuasPistas : HashTable :=
  inserirTodasNaHash tabelaVazia [([99], nome127), ([100], nome127)]

/-- The notices of the navigation: no room on the left, no room on the right, invalid
command. -/
def avisoNavegacao : Out → Bool
  | Out.semSalaEsquerda => true
  | Out.semSalaDireita => true
  | Out.comandoInvalido => true
  | _ => false

/-- The commands of the explorer. -/
inductive Comando
  | esquerda
  | direita
  | sair
  | invalido
  deriving DecidableEq

/-- The command of a line in the words of the specification: the first byte of the
line that is not white space, taken case-insensitively; `e` is left, `d` is right,
`s` is stop, anything else, or no such byte, is invalid. -/
def comandoDaLinha (linha : List Nat) : Comando :=
  match linha.find? (fun b => !isspace b) with
  | some b =>
    if b = 101 ∨ b = 69 then .esquerda
    else if b = 100 ∨ b = 68 then .direita
    else if b = 115 ∨ b = 83 then .sair
    else .invalido
  | none => .invalido

/-- The command that the chain `if (c == 's') ... else if (c == 'e') ... else if
(c == 'd') ... else` of `explorarSalas` (lines 254-271) takes for the byte `c`. -/
def comandoDoByte (c : Nat) : Comando :=
  if c = 115 then .sair
  else if c = 101 then .esquerda
  else if c = 100 then .direita
  else .invalido

/-- The transition of the explorer in the words of the specification, for a command
read at the room `nome, esq, dir` with the ledger `bst`, `resto` being the stream
after the line of the command: stop ends the loop; left and right move to the child
when there is one and otherwise stay with a notice; an invalid command stays with a
notice. The clue check of the room comes first. -/
def passoDoComando (cmd : Comando) (nome : CStr) (esq dir : Sala) (bst : PistaBST)
    (resto : List Nat) : Bool × Exploracao :=
  let atual := Sala.mk nome esq dir
  let ledger := (coletar bst (regraPista nome)).1
  let saida := Out.voceEstaNaSala nome :: (coletar bst (regraPista nome)).2 ++ [Out.escolhaPrompt]
  match cmd with
  | .sair => (false, ⟨atual, ledger, resto, saida ++ [Out.optouEncerrar]⟩)
  | .esquerda =>
    match esq with
    | .null => (true, ⟨atual, ledger, resto, saida ++ [Out.semSalaEsquerda]⟩)
    | .mk _ _ _ => (true, ⟨esq, ledger, resto, saida⟩)
  | .direita =>
    match dir with
    | .null => (true, ⟨atual, ledger, resto, saida ++ [Out.semSalaDireita]⟩)
    | .mk _ _ _ => (true, ⟨dir, ledger, resto, saida⟩)
  | .invalido => (true, ⟨atual, ledger, resto, saida ++ [Out.comandoInvalido]⟩)

/-- One step of the loop of `hash_djb2` when `unsigned long` has `w` bits. -/
def hash_passo_w (w hash c : Nat) : Nat :=
  (((hash <<< 5) % 2 ^ w + hash) % 2 ^ w + c % 256) % 2 ^ w

/-- Source: `hash_djb2` (lines 91-97) when `unsigned long` has `w` bits; `hash_djb2`
is the case of 64 bits. -/
def hash_djb2_w (w : Nat) (str : CStr) : Nat :=
  str.foldl (hash_passo_w w) (5381 % 2 ^ w)

/-- The stream of a sequence of input lines: every line followed by its newline. -/
def fluxo (linhas : List (List Nat)) : List Nat :=
  linhas.flatMap (fun l => l ++ [10])

/-- The name of a room; the NULL pointer has none. -/
def nomeDe : Sala → CStr
  | .null => []
  | .mk nome _ _ => nome

/-- The left child of a room (`s->esq`). -/
def esqDe : Sala → Sala
  | .null => .null
  | .mk _ esq _ => esq

/-- The right child of a room (`s->dir`). -/
def dirDe : Sala → Sala
  | .null => .null
  | .mk _ _ dir => dir

/-- The rooms of a map. -/
def salasDe : Sala → List Sala
  | .null => []
  | .mk nome esq dir => .mk nome esq dir :: (salasDe esq ++ salasDe dir)

/-- The names of the rooms on the way from the root of a map down to the room called
`alvo`, both included; empty when the map has no such room. -/
def caminho : Sala → CStr → List CStr
  | .null, _ => []
  | .mk nome esq dir, alvo =>
    if nome = alvo then [nome]
    else if caminho esq alvo ≠ [] then nome :: caminho esq alvo
    else if caminho dir alvo ≠ [] then nome :: caminho dir alvo
    else []

/-- The depth of the room called `alvo` in a map: the root has depth 0. -/
def profundidade (raiz : Sala) (alvo : CStr) : Nat :=
  (caminho raiz alvo).length - 1

/-- Every room of a map with the ledger the explorer brings into it when it comes down
from the root with the ledger `bst`: the clue check of each room on the way has run. -/
def entradasDe : Sala → PistaBST → List (Sala × PistaBST)
  | .null, _ => []
  | .mk nome esq dir, bst =>
    (.mk nome esq dir, bst)
      :: (entradasDe esq (coletar bst (regraPista nome)).1
        ++ entradasDe dir (coletar bst (regraPista nome)).1)

/-- The rooms of the map of `main` with the ledgers of a session that starts at the
Hall with the empty ledger. -/
def entradas : List (Sala × PistaBST) :=
  entradasDe hall .nil

/-- The ledger after the clue check of the room of an entry. -/
def depois (x : Sala × PistaBST) : PistaBST :=
  (coletar x.2 (regraPista (nomeDe x.1))).1

/-- The three suspects of the table of `main`. -/
def tresSuspeitos : List CStr :=
  [lit "Joao", lit "Maria", lit "Carlos"]

/-- The pairs of final room and accused for which the accusation is sustained. -/
def paresSustentados : List (CStr × CStr) :=
  [(lit "Quarto Principal", lit "Maria"), (lit "Cozinha", lit "Carlos"),
    (lit "Jardim", lit "Joao")]

/-- The pairs of clue and suspect that `main` inserts (lines 376-382), in order. -/
def paresMain : List (CStr × CStr) :=
  [(lit "pegada de bota molhada", lit "Joao"),
    (lit "fio de seda vermelho", lit "Maria"),
    (lit "marca de copo com monograma", lit "Carlos"),
    (lit "lâmina com resquício de sangue", lit "Carlos"),
    (lit "brinco de pérola quebrado", lit "Maria"),
    (lit "bilhete rasgado com iniciais C.R.", lit "Carlos"),
    (lit "sementes pisoteadas", lit "Joao")]

/-! ## Facts about `strcmp` -/

theorem strcmp_self (a : CStr) : strcmp a a = 0 := by
  induction a with
  | nil => simp [strcmp]
  | cons x xs ih => simp [strcmp, ih]

theorem strcmp_eq_zero_iff (a b : CStr) : strcmp a b = 0 ↔ a = b := by
  induction a generalizing b with
  | nil => cases b <;> simp [strcmp]
  | cons x xs ih =>
    cases b with
    | nil => simp [strcmp]
    | cons y ys =>
      simp only [strcmp, List.cons.injEq]
      split_ifs with h1 h2
      · constructor
        · intro h; simp at h
        · rintro ⟨h, -⟩; omega
      · constructor
        · intro h; simp at h
        · rintro ⟨h, -⟩; omega
      · rw [ih]
        constructor
        · intro h; exact ⟨by omega, h⟩
        · rintro ⟨-, h⟩; exact h

theorem strcmp_pos_iff (a b : CStr) : 0 < strcmp a b ↔ strcmp b a < 0 := by
  induction a generalizing b with
  | nil => cases b <;> simp [strcmp]
  | cons x xs ih =>
    cases b with
    | nil => simp [strcmp]
    | cons y ys =>
      simp only [strcmp]
      split_ifs <;> first | omega | exact ih ys

theorem strcmp_neg_iff (a b : CStr) : strcmp a b < 0 ↔ 0 < strcmp b a :=
  (strcmp_pos_iff b a).symm

theorem strcmp_lt_of_lt_of_le {a b c : CStr} (h1 : strcmp a b < 0) (h2 : strcmp b c ≤ 0) :
    strcmp a c < 0 := by
  induction a generalizing b c with
  | nil =>
    cases b with
    | nil => simp [strcmp] at h1
    | cons y ys =>
      cases c with
      | nil => simp [strcmp] at h2
      | cons z zs => simp [strcmp]
  | cons x xs ih =>
    cases b with
    | nil => simp [strcmp] at h1
    | cons y ys =>
      cases c with
      | nil => simp [strcmp] at h2
      | cons z zs =>
        simp only [strcmp] at h1 h2 ⊢
        split_ifs at h1 h2 ⊢ <;> first | omega | exact ih h1 h2

theorem strcmp_lt_of_le_of_lt {a b c : CStr} (h1 : strcmp a b ≤ 0) (h2 : strcmp b c < 0) :
    strcmp a c < 0 := by
  induction a generalizing b c with
  | nil =>
    cases c with
    | nil => cases b <;> simp [strcmp] at h2
    | cons z zs => simp [strcmp]
  | cons x xs ih =>
    cases b with
    | nil => simp [strcmp] at h1
    | cons y ys =>
      cases c with
      | nil => simp [strcmp] at h2
      | cons z zs =>
        simp only [strcmp] at h1 h2 ⊢
        split_ifs at h1 h2 ⊢ <;> first | omega | exact ih h1 h2

theorem strcmp_le_trans {a b c : CStr} (h1 : strcmp a b ≤ 0) (h2 : strcmp b c ≤ 0) :
    strcmp a c ≤ 0 := by
  rcases lt_or_eq_of_le h2 with h | h
  · exact le_of_lt (strcmp_lt_of_le_of_lt h1 h)
  · rw [strcmp_eq_zero_iff] at h
    subst h
    exact h1

/-- A text is never below one of its prefixes. -/
theorem strcmp_take_le (n : Nat) (x : CStr) : strcmp (x.take n) x ≤ 0 := by
  induction x generalizing n with
  | nil => simp [strcmp]
  | cons a as ih =>
    cases n with
    | zero => simp [strcmp]
    | succ m =>
      simp only [List.take_succ_cons, strcmp, lt_self_iff_false, if_false]
      exact ih m

/-- Cutting a text that is above `r` to a length that `r` fits in keeps it at or
above `r`. -/
theorem strcmp_le_take {x r : CStr} (n : Nat) (h : 0 < strcmp x r) (hr : r.length ≤ n) :
    strcmp r (x.take n) ≤ 0 := by
  induction x generalizing r n with
  | nil => cases r <;> simp [strcmp] at h
  | cons a as ih =>
    cases r with
    | nil => cases n <;> simp [strcmp]
    | cons b bs =>
      cases n with
      | zero => simp at hr
      | succ m =>
        simp only [List.length_cons, Nat.add_le_add_iff_right] at hr
        simp only [strcmp] at h
        simp only [List.take_succ_cons, strcmp]
        split_ifs at h ⊢ <;> first | omega | exact ih m h hr

theorem strncpy_max_length (s : CStr) : (strncpy_max s).length ≤ 127 := by
  simp [strncpy_max, MAX_STR]

theorem strncpy_max_of_short {s : CStr} (h : s.length < MAX_STR) : strncpy_max s = s := by
  simp only [MAX_STR] at h
  simp only [strncpy_max, MAX_STR]
  exact List.take_of_length_le (by omega)

/-! ## The ledger keeps its ordering invariant -/

theorem inserirPista_vazia (t : PistaBST) : inserirPista t [] = (t, []) := by
  cases t <;> simp [inserirPista]

theorem inserirPista_nil (c : CStr) :
    inserirPista .nil c =
      if c.length = 0 then (.nil, [])
      else (.node (strncpy_max c) .nil .nil, [Out.pistaColetada c]) := by
  unfold inserirPista
  rfl

theorem inserirPista_node (p : CStr) (esq dir : PistaBST) (c : CStr) :
    inserirPista (.node p esq dir) c =
      if c.length = 0 then (.node p esq dir, [])
      else if strcmp c p = 0 then (.node p esq dir, [Out.jaColetou c])
      else if strcmp c p < 0 then
        (.node p (inserirPista esq c).1 dir, (inserirPista esq c).2)
      else
        (.node p esq (inserirPista dir c).1, (inserirPista dir c).2) := by
  conv_lhs => unfold inserirPista

theorem mem_textos_inserir {t : PistaBST} {c x : CStr}
    (h : x ∈ textos (inserirPista t c).1) : x ∈ textos t ∨ x = strncpy_max c := by
  induction t with
  | nil =>
    rw [inserirPista_nil] at h
    split_ifs at h with h0
    · simp [textos] at h
    · simp [textos] at h; exact Or.inr h
  | node p esq dir ihe ihd =>
    rw [inserirPista_node] at h
    split_ifs at h with h0 h1 h2
    · exact Or.inl h
    · exact Or.inl h
    · simp only [textos, List.mem_append, List.mem_cons] at h ⊢
      rcases h with h | h | h
      · rcases ihe h with h' | h'
        · exact Or.inl (Or.inl h')
        · exact Or.inr h'
      · exact Or.inl (Or.inr (Or.inl h))
      · exact Or.inl (Or.inr (Or.inr h))
    · simp only [textos, List.mem_append, List.mem_cons] at h ⊢
      rcases h with h | h | h
      · exact Or.inl (Or.inl h)
      · exact Or.inl (Or.inr (Or.inl h))
      · rcases ihd h with h' | h'
        · exact Or.inl (Or.inr (Or.inr h'))
        · exact Or.inr h'

theorem mem_textos_of_mem {t : PistaBST} {x : CStr} (c : CStr) (h : x ∈ textos t) :
    x ∈ textos (inserirPista t c).1 := by
  induction t with
  | nil => simp [textos] at h
  | node p esq dir ihe ihd =>
    rw [inserirPista_node]
    split_ifs with h0 h1 h2
    · exact h
    · exact h
    · simp only [textos, List.mem_append, List.mem_cons] at h ⊢
      rcases h with h | h | h
      · exact Or.inl (ihe h)
      · exact Or.inr (Or.inl h)
      · exact Or.inr (Or.inr h)
    · simp only [textos, List.mem_append, List.mem_cons] at h ⊢
      rcases h with h | h | h
      · exact Or.inl h
      · exact Or.inr (Or.inl h)
      · exact Or.inr (Or.inr (ihd h))

theorem strncpy_max_pos {c : CStr} (h : ¬ c.length = 0) : 0 < (strncpy_max c).length := by
  cases c with
  | nil => simp at h
  | cons a as => simp [strncpy_max, MAX_STR]

theorem ordenada_inserir {t : PistaBST} (c : CStr) (h : Ordenada t) :
    Ordenada (inserirPista t c).1 := by
  induction t with
  | nil =>
    rw [inserirPista_nil]
    split_ifs with h0
    · exact h
    · simp only [Ordenada, textos, List.not_mem_nil, false_imp_iff, implies_true, true_and,
        and_true]
      exact ⟨strncpy_max_pos h0, strncpy_max_length c⟩
  | node p esq dir ihe ihd =>
    obtain ⟨hl, hr, hp0, hp, he, hd⟩ := h
    rw [inserirPista_node]
    split_ifs with h0 h1 h2
    · exact ⟨hl, hr, hp0, hp, he, hd⟩
    · exact ⟨hl, hr, hp0, hp, he, hd⟩
    · refine ⟨?_, hr, hp0, hp, ihe he, hd⟩
      intro x hx
      rcases mem_textos_inserir hx with hx' | hx'
      · exact hl x hx'
      · subst hx'
        exact strcmp_lt_of_le_of_lt (strcmp_take_le _ c) h2
    · refine ⟨hl, ?_, hp0, hp, he, ihd hd⟩
      intro x hx
      rcases mem_textos_inserir hx with hx' | hx'
      · exact hr x hx'
      · subst hx'
        have hpos : 0 < strcmp c p := by
          rcases lt_trichotomy (strcmp c p) 0 with h3 | h3 | h3
          · exact absurd h3 h2
          · exact absurd h3 h1
          · exact h3
        exact strcmp_le_take _ hpos (by simpa [MAX_STR] using hp)

theorem ordenada_inserirTodas {t : PistaBST} (ps : List CStr) (h : Ordenada t) :
    Ordenada (inserirTodas t ps) := by
  induction ps generalizing t with
  | nil => exact h
  | cons c cs ih => exact ih (ordenada_inserir c h)

theorem ordenada_pairwise {t : PistaBST} (h : Ordenada t) :
    (textos t).Pairwise (fun a b => strcmp a b ≤ 0) := by
  induction t with
  | nil => simp [textos]
  | node p esq dir ihe ihd =>
    obtain ⟨hl, hr, -, -, he, hd⟩ := h
    simp only [textos]
    rw [List.pairwise_append]
    refine ⟨ihe he, ?_, ?_⟩
    · rw [List.pairwise_cons]
      exact ⟨hr, ihd hd⟩
    · intro a ha b hb
      rcases List.mem_cons.mp hb with hb' | hb'
      · subst hb'
        exact le_of_lt (hl a ha)
      · exact le_of_lt (strcmp_lt_of_lt_of_le (hl a ha) (hr b hb'))

theorem existePista_iff {t : PistaBST} (c : CStr) (h : Ordenada t) :
    existePista t c = 1 ↔ c ∈ textos t := by
  induction t with
  | nil => simp [existePista, textos]
  | node p esq dir ihe ihd =>
    obtain ⟨hl, hr, -, -, he, hd⟩ := h
    simp only [existePista, textos, List.mem_append, List.mem_cons]
    split_ifs with h1 h2
    · rw [strcmp_eq_zero_iff] at h1
      simp [h1]
    · rw [ihe he]
      constructor
      · intro hc; exact Or.inl hc
      · rintro (hc | hc | hc)
        · exact hc
        · rw [hc, strcmp_self] at h1; exact absurd rfl h1
        · have := strcmp_lt_of_lt_of_le h2 (hr c hc)
          rw [strcmp_self] at this
          exact absurd this (lt_irrefl 0)
    · rw [ihd hd]
      constructor
      · intro hc; exact Or.inr (Or.inr hc)
      · rintro (hc | hc | hc)
        · exact absurd (hl c hc) h2
        · rw [hc, strcmp_self] at h1; exact absurd rfl h1
        · exact hc

theorem existePista_zero_or_one (t : PistaBST) (c : CStr) :
    existePista t c = 0 ∨ existePista t c = 1 := by
  induction t with
  | nil => simp [existePista]
  | node p esq dir ihe ihd =>
    simp only [existePista]
    split_ifs
    · exact Or.inr rfl
    · exact ihe
    · exact ihd

theorem vazia_not_mem {t : PistaBST} (h : Ordenada t) : [] ∉ textos t := by
  induction t with
  | nil => simp [textos]
  | node p esq dir ihe ihd =>
    obtain ⟨-, -, hp0, -, he, hd⟩ := h
    simp only [textos, List.mem_append, List.mem_cons, not_or]
    refine ⟨ihe he, ?_, ihd hd⟩
    intro hp
    rw [← hp] at hp0
    simp at hp0

theorem inserir_of_mem {t : PistaBST} {c : CStr} (h : Ordenada t) (hc : c ∈ textos t) :
    inserirPista t c = (t, [Out.jaColetou c]) := by
  induction t with
  | nil => simp [textos] at hc
  | node p esq dir ihe ihd =>
    obtain ⟨hl, hr, hp0, -, he, hd⟩ := h
    simp only [textos, List.mem_append, List.mem_cons] at hc
    rw [inserirPista_node]
    split_ifs with h0 h1 h2
    · exfalso
      rw [List.length_eq_zero] at h0
      subst h0
      have hvazio : ∀ u : PistaBST, Ordenada u → [] ∈ textos u → False :=
        fun u hu hm => vazia_not_mem hu hm
      rcases hc with hc | hc | hc
      · exact hvazio esq he hc
      · subst hc; simp at hp0
      · exact hvazio dir hd hc
    · rfl
    · rcases hc with hc | hc | hc
      · rw [ihe he hc]
      · rw [hc, strcmp_self] at h1; exact absurd rfl h1
      · have := strcmp_lt_of_lt_of_le h2 (hr c hc)
        rw [strcmp_self] at this
        exact absurd this (lt_irrefl 0)
    · rcases hc with hc | hc | hc
      · exact absurd (hl c hc) h2
      · rw [hc, strcmp_self] at h1; exact absurd rfl h1
      · rw [ihd hd hc]

theorem textos_inserir_perm {t : PistaBST} {c : CStr} (h0 : ¬ c.length = 0)
    (hc : c ∉ textos t) :
    (textos (inserirPista t c).1).Perm (strncpy_max c :: textos t) := by
  induction t with
  | nil =>
    rw [inserirPista_nil]
    simp [h0, textos]
  | node p esq dir ihe ihd =>
    simp only [textos, List.mem_append, List.mem_cons, not_or] at hc
    obtain ⟨hce, hcp, hcd⟩ := hc
    rw [inserirPista_node, if_neg h0]
    have h1 : ¬ strcmp c p = 0 := by
      rw [strcmp_eq_zero_iff]; exact hcp
    simp only [h1, if_false]
    split_ifs with h2
    · simp only [textos]
      exact ((ihe hce).append_right _).trans (by simp)
    · simp only [textos]
      have := (ihd hcd)
      refine (List.Perm.append_left (textos esq) (List.Perm.cons p this)).trans ?_
      refine (List.Perm.append_left (textos esq) (List.Perm.swap _ _ _)).trans ?_
      exact List.perm_middle

theorem inserir_short {t : PistaBST} {c : CStr} (h : Ordenada t)
    (hn : (textos t).Nodup) (hc : c.length < MAX_STR) :
    (textos (inserirPista t c).1).Nodup ∧
      ∀ x, x ∈ textos (inserirPista t c).1 ↔ x ∈ textos t ∨ (x = c ∧ x ≠ []) := by
  by_cases h0 : c.length = 0
  · rw [List.length_eq_zero] at h0
    subst h0
    rw [inserirPista_vazia]
    refine ⟨hn, fun x => ⟨Or.inl, ?_⟩⟩
    rintro (hx | ⟨hx, hx'⟩)
    · exact hx
    · exact absurd hx hx'
  · have hne : c ≠ [] := fun hc' => h0 (by rw [hc']; rfl)
    by_cases hm : c ∈ textos t
    · rw [inserir_of_mem h hm]
      refine ⟨hn, fun x => ⟨Or.inl, ?_⟩⟩
      rintro (hx | ⟨hx, -⟩)
      · exact hx
      · rw [hx]; exact hm
    · have hperm := textos_inserir_perm h0 hm
      rw [strncpy_max_of_short hc] at hperm
      refine ⟨hperm.nodup_iff.mpr (List.nodup_cons.mpr ⟨hm, hn⟩), fun x => ?_⟩
      rw [hperm.mem_iff, List.mem_cons]
      constructor
      · rintro (hx | hx)
        · exact Or.inr ⟨hx, by rw [hx]; exact hne⟩
        · exact Or.inl hx
      · rintro (hx | ⟨hx, -⟩)
        · exact Or.inr hx
        · exact Or.inl hx

theorem inserirTodas_short {t : PistaBST} (ps : List CStr) (h : Ordenada t)
    (hn : (textos t).Nodup) (hps : ∀ c ∈ ps, c.length < MAX_STR) :
    (textos (inserirTodas t ps)).Nodup ∧
      ∀ x, x ∈ textos (inserirTodas t ps) ↔ x ∈ textos t ∨ (x ∈ ps ∧ x ≠ []) := by
  induction ps generalizing t with
  | nil => simp [inserirTodas, hn]
  | cons c cs ih =>
    have hc : c.length < MAX_STR := hps c (List.mem_cons_self _ _)
    have hcs : ∀ c ∈ cs, c.length < MAX_STR := fun x hx => hps x (List.mem_cons_of_mem _ hx)
    obtain ⟨hn1, hm1⟩ := inserir_short h hn hc
    obtain ⟨hn2, hm2⟩ := ih (ordenada_inserir c h) hn1 hcs
    refine ⟨hn2, fun x => ?_⟩
    have : inserirTodas t (c :: cs) = inserirTodas (inserirPista t c).1 cs := rfl
    rw [this, hm2, hm1, List.mem_cons]
    constructor
    · rintro ((hx | ⟨hx, hx'⟩) | ⟨hx, hx'⟩)
      · exact Or.inl hx
      · exact Or.inr ⟨Or.inl hx, hx'⟩
      · exact Or.inr ⟨Or.inr hx, hx'⟩
    · rintro (hx | ⟨hx | hx, hx'⟩)
      · exact Or.inl (Or.inl hx)
      · exact Or.inl (Or.inr ⟨hx, hx'⟩)
      · exact Or.inr ⟨hx, hx'⟩

/-- Two listings in `strcmp` order without repeats that hold the same texts are the
same listing. -/
theorem listagem_unica {l1 l2 : List CStr}
    (h1 : l1.Pairwise (fun a b => strcmp a b ≤ 0)) (h2 : l2.Pairwise (fun a b => strcmp a b ≤ 0))
    (n1 : l1.Nodup) (n2 : l2.Nodup) (hm : ∀ x, x ∈ l1 ↔ x ∈ l2) : l1 = l2 := by
  haveI : IsAntisymm CStr (fun a b => strcmp a b ≤ 0) :=
    ⟨fun a b hab hba => by
      rcases lt_or_eq_of_le hab with h | h
      · have := (strcmp_neg_iff a b).mp h
        omega
      · exact (strcmp_eq_zero_iff a b).mp h⟩
  exact List.eq_of_perm_of_sorted ((List.perm_ext_iff_of_nodup n1 n2).mpr hm) h1 h2

theorem countP_eq_one_of_mem {l : List CStr} {c : CStr} (hn : l.Nodup) (hc : c ∈ l) :
    l.countP (fun x => x = c) = 1 := by
  induction l with
  | nil => simp at hc
  | cons a as ih =>
    rw [List.nodup_cons] at hn
    rcases List.mem_cons.mp hc with h | h
    · subst h
      have : as.countP (fun x => x = c) = 0 := by
        rw [List.countP_eq_zero]
        intro x hx
        simp only [decide_eq_true_eq]
        intro hxc
        exact hn.1 (hxc ▸ hx)
      simp [List.countP_cons, this]
    · have hne : a ≠ c := fun hac => hn.1 (hac ▸ h)
      simp [List.countP_cons, hne, ih hn.2 h]

theorem listar_eq_map (t : PistaBST) :
    listarPistasInOrder t = (textos t).map Out.itemPista := by
  induction t with
  | nil => rfl
  | node p esq dir ihe ihd => simp [listarPistasInOrder, textos, ihe, ihd]

/-! ## C1: uniqueness in the ledger -/

set_option maxRecDepth 100000 in
/-- C1, as stated, fails: the text of 128 bytes inserted twice leaves a ledger of two
nodes that hold the same 127 bytes, and the inserted text itself is in no node. -/
theorem C1_counterexample :
    textos (inserirTodas .nil [textoLongo, textoLongo])
        = [List.replicate 127 97, List.replicate 127 97] ∧
      textoLongo ∉ textos (inserirTodas .nil [textoLongo, textoLongo]) ∧
      ¬ (textos (inserirTodas .nil [textoLongo, textoLongo])).Nodup := by
  decide

/-- C1 (amended to texts shorter than `MAX_STR`): after any sequence of such texts is
inserted into the empty ledger, no two nodes hold equal text, the node texts are
exactly the non-empty texts of the sequence, each of them is in exactly one node, and
the in-order listing is the same for every sequence with the same texts (any order,
any repeats). -/
theorem C1_ledger_uniqueness (ps : List CStr) (hps : ∀ c ∈ ps, c.length < MAX_STR) :
    (textos (inserirTodas .nil ps)).Nodup ∧
      (∀ c, c ∈ textos (inserirTodas .nil ps) ↔ c ∈ ps ∧ c ≠ []) ∧
      (∀ c ∈ ps, c ≠ [] → (textos (inserirTodas .nil ps)).countP (fun x => x = c) = 1) ∧
      (∀ qs : List CStr, (∀ c ∈ qs, c.length < MAX_STR) → (∀ c, c ∈ qs ↔ c ∈ ps) →
        textos (inserirTodas .nil qs) = textos (inserirTodas .nil ps)) := by
  have hnil : Ordenada .nil := trivial
  have hnd : (textos .nil).Nodup := List.nodup_nil
  obtain ⟨hn, hm⟩ := inserirTodas_short ps hnil hnd hps
  have hm' : ∀ c, c ∈ textos (inserirTodas .nil ps) ↔ c ∈ ps ∧ c ≠ [] := by
    intro c
    rw [hm c]
    simp [textos]
  refine ⟨hn, hm', ?_, ?_⟩
  · intro c hc hne
    exact countP_eq_one_of_mem hn ((hm' c).mpr ⟨hc, hne⟩)
  · intro qs hqs hq
    obtain ⟨hn2, hm2⟩ := inserirTodas_short qs hnil hnd hqs
    apply listagem_unica (ordenada_pairwise (ordenada_inserirTodas qs hnil))
      (ordenada_pairwise (ordenada_inserirTodas ps hnil)) hn2 hn
    intro x
    rw [hm2 x, hm x, hq x]

theorem C1_ledger_uniqueness_witness :
    (textos (inserirTodas .nil [[98], [97], [], [98]])).Nodup ∧
      (∀ c, c ∈ textos (inserirTodas .nil [[98], [97], [], [98]])
        ↔ c ∈ [[98], [97], [], [98]] ∧ c ≠ []) ∧
      (∀ c ∈ [[98], [97], [], [98]], c ≠ [] →
        (textos (inserirTodas .nil [[98], [97], [], [98]])).countP (fun x => x = c) = 1) ∧
      (∀ qs : List CStr, (∀ c ∈ qs, c.length < MAX_STR) →
        (∀ c, c ∈ qs ↔ c ∈ [[98], [97], [], [98]]) →
        textos (inserirTodas .nil qs) = textos (inserirTodas .nil [[98], [97], [], [98]])) :=
  C1_ledger_uniqueness [[98], [97], [], [98]] (by decide)

/-! ## C2: the listing is in alphabetical order -/

/-- C2: for every ledger built by `inserirPista` from the empty ledger, the texts met
by the in-order traversal are in non-decreasing `strcmp` order (every earlier text
compares at most equal to every later one), and the lines `listarPistasInOrder` prints
are one line per node carrying exactly those texts in that order: the lines are a
function of the ledger alone, the traversal gives back no new ledger, so a second run
on the same ledger prints the identical sequence. -/
theorem C2_alphabetical_listing (ps : List CStr) :
    (textos (inserirTodas .nil ps)).Pairwise (fun a b => strcmp a b ≤ 0) ∧
      listarPistasInOrder (inserirTodas .nil ps)
        = (textos (inserirTodas .nil ps)).map Out.itemPista ∧
      listarPistasInOrder (inserirTodas .nil ps) ++ listarPistasInOrder (inserirTodas .nil ps)
        = ((textos (inserirTodas .nil ps)).map Out.itemPista)
          ++ ((textos (inserirTodas .nil ps)).map Out.itemPista) := by
  refine ⟨ordenada_pairwise (ordenada_inserirTodas ps trivial), listar_eq_map _, ?_⟩
  rw [listar_eq_map]

/-! ## C3: counting the clues that point to a suspect -/

theorem contar_eq_countP (t : PistaBST) (hashTable : HashTable) (alvo : CStr) :
    contarPistasParaSuspeito t hashTable alvo
      = (textos t).countP (fun c => encontrarSuspeito hashTable c = some alvo) := by
  induction t with
  | nil => rfl
  | node p esq dir ihe ihd =>
    simp only [contarPistasParaSuspeito, textos, List.countP_append, List.countP_cons, ihe, ihd]
    cases hs : encontrarSuspeito hashTable p with
    | none => simp
    | some s =>
      by_cases heq : s = alvo
      · subst heq
        simp [strcmp_self]; omega
      · have : ¬ strcmp s alvo = 0 := by
          rw [strcmp_eq_zero_iff]; exact heq
        simp [this, heq]

/-- C3: for every ledger, suspect index and target name, `contarPistasParaSuspeito` is
the number of nodes whose text has an `encontrarSuspeito` result that is present and
equal to the target; every node adds 0 or 1 (the count is at most the number of
nodes), and two ledgers that hold the same texts in different shapes give the same
count. -/
theorem C3_match_counting (t : PistaBST) (hashTable : HashTable) (alvo : CStr) :
    contarPistasParaSuspeito t hashTable alvo
        = (textos t).countP (fun c => encontrarSuspeito hashTable c = some alvo) ∧
      contarPistasParaSuspeito t hashTable alvo ≤ numNos t ∧
      (textos t).length = numNos t ∧
      ∀ u : PistaBST, (textos u).Perm (textos t) →
        contarPistasParaSuspeito u hashTable alvo
          = contarPistasParaSuspeito t hashTable alvo := by
  have hlen : ∀ v : PistaBST, (textos v).length = numNos v := by
    intro v
    induction v with
    | nil => rfl
    | node p esq dir ihe ihd => simp [textos, numNos, ihe, ihd]; omega
  refine ⟨contar_eq_countP t hashTable alvo, ?_, hlen t, ?_⟩
  · rw [contar_eq_countP, ← hlen t]
    exact List.countP_le_length _
  · intro u hu
    rw [contar_eq_countP, contar_eq_countP]
    exact hu.countP_eq _

/-! ## C6: membership -/

/-- C6: for every ledger built by `inserirPista` from the empty ledger and every text
`c`, `existePista` returns 1 exactly when `c` is the text of a node, that is exactly
when the listing has a line for `c`; otherwise it returns 0. -/
theorem C6_membership (ps : List CStr) (c : CStr) :
    (existePista (inserirTodas .nil ps) c = 1 ↔ c ∈ textos (inserirTodas .nil ps)) ∧
      (existePista (inserirTodas .nil ps) c = 1
        ↔ Out.itemPista c ∈ listarPistasInOrder (inserirTodas .nil ps)) ∧
      (existePista (inserirTodas .nil ps) c = 0 ↔ c ∉ textos (inserirTodas .nil ps)) := by
  have h := existePista_iff c (ordenada_inserirTodas ps (t := .nil) trivial)
  refine ⟨h, ?_, ?_⟩
  · rw [h, listar_eq_map, List.mem_map]
    constructor
    · intro hc; exact ⟨c, hc, rfl⟩
    · rintro ⟨x, hx, hxc⟩
      cases hxc
      exact hx
  · rw [← h]
    rcases existePista_zero_or_one (inserirTodas .nil ps) c with h0 | h1
    · simp [h0]
    · simp [h1]

/-! ## C7: collecting a clue again changes nothing -/

/-- C7: for every ledger built by insertions and every text already in it,
`inserirPista` prints the "already collected" line and returns the same ledger (so
the same texts and the same number of nodes); and a pass of the explorer through a
room whose clue is that text prints the "already part of your evidence" line and
leaves the ledger as it was, whatever the command read. -/
theorem C7_recollect_noop (ps : List CStr) (c : CStr)
    (hc : c ∈ textos (inserirTodas .nil ps)) :
    inserirPista (inserirTodas .nil ps) c = (inserirTodas .nil ps, [Out.jaColetou c]) ∧
      numNos (inserirPista (inserirTodas .nil ps) c).1 = numNos (inserirTodas .nil ps) ∧
      coletar (inserirTodas .nil ps) c
        = (inserirTodas .nil ps, [Out.voceEncontrou c, Out.jaFaziaParte]) ∧
      ∀ (nome : CStr) (esq dir : Sala) (stdin : List Nat), regraPista nome = c →
        (iteracao nome esq dir (inserirTodas .nil ps) stdin).2.bst = inserirTodas .nil ps := by
  have ho : Ordenada (inserirTodas .nil ps) := ordenada_inserirTodas ps trivial
  have hi := inserir_of_mem ho hc
  have hpos : c.length > 0 := by
    cases c with
    | nil => exact absurd hc (vazia_not_mem ho)
    | cons a as => simp
  have hcol : coletar (inserirTodas .nil ps) c
      = (inserirTodas .nil ps, [Out.voceEncontrou c, Out.jaFaziaParte]) := by
    have h1 : existePista (inserirTodas .nil ps) c = 1 := (existePista_iff c ho).mpr hc
    simp [coletar, hpos, h1]
  refine ⟨hi, by rw [hi], hcol, ?_⟩
  intro nome esq dir stdin hn
  simp only [iteracao, hn, hcol]
  cases fgets 8 stdin with
  | none => rfl
  | some r =>
    simp only
    split_ifs
    · rfl
    · cases esq <;> rfl
    · cases dir <;> rfl
    · rfl

theorem C7_recollect_noop_witness :
    inserirPista (inserirTodas .nil [[98], [97]]) [97]
        = (inserirTodas .nil [[98], [97]], [Out.jaColetou [97]]) ∧
      numNos (inserirPista (inserirTodas .nil [[98], [97]]) [97]).1
        = numNos (inserirTodas .nil [[98], [97]]) ∧
      coletar (inserirTodas .nil [[98], [97]]) [97]
        = (inserirTodas .nil [[98], [97]], [Out.voceEncontrou [97], Out.jaFaziaParte]) ∧
      ∀ (nome : CStr) (esq dir : Sala) (stdin : List Nat), regraPista nome = [97] →
        (iteracao nome esq dir (inserirTodas .nil [[98], [97]]) stdin).2.bst
          = inserirTodas .nil [[98], [97]] :=
  C7_recollect_noop [[98], [97]] [97] (by decide)

/-! ## The suspect index -/

theorem hash_index_lt (k : CStr) : hash_djb2 k % HASH_SIZE < HASH_SIZE :=
  Nat.mod_lt _ (by decide)

theorem getD_set_same {α : Type} (l : List (List α)) (i : Nat) (v : List α)
    (hi : i < l.length) : (l.set i v).getD i [] = v := by
  induction l generalizing i with
  | nil => simp at hi
  | cons a as ih =>
    cases i with
    | zero => simp
    | succ j =>
      simp only [List.length_cons, Nat.add_lt_add_iff_right] at hi
      simpa using ih j hi

theorem getD_set_other {α : Type} (l : List (List α)) (i j : Nat) (v : List α)
    (hij : i ≠ j) : (l.set i v).getD j [] = l.getD j [] := by
  induction l generalizing i j with
  | nil => simp
  | cons a as ih =>
    cases i with
    | zero =>
      cases j with
      | zero => exact absurd rfl hij
      | succ j' => simp
    | succ i' =>
      cases j with
      | zero => simp
      | succ j' =>
        have : i' ≠ j' := fun h => hij (by rw [h])
        simpa using ih i' j' this

theorem sum_length_set {α : Type} (l : List (List α)) (i : Nat) (x : α)
    (hi : i < l.length) :
    ((l.set i (x :: l.getD i [])).map List.length).sum = (l.map List.length).sum + 1 := by
  induction l generalizing i with
  | nil => simp at hi
  | cons a as ih =>
    cases i with
    | zero => simp; omega
    | succ j =>
      simp only [List.length_cons, Nat.add_lt_add_iff_right] at hi
      have := ih j hi
      simp only [List.set_cons_succ, List.map_cons, List.sum_cons, List.getD_cons_succ] at this ⊢
      omega

theorem length_inserirNaHash (t : HashTable) (k s : CStr) :
    (inserirNaHash t k s).length = t.length := by
  simp [inserirNaHash]

theorem total_inserirNaHash (t : HashTable) (k s : CStr) (ht : t.length = HASH_SIZE) :
    totalEntradas (inserirNaHash t k s) = totalEntradas t + 1 := by
  simp only [totalEntradas, inserirNaHash]
  exact sum_length_set t _ _ (by rw [ht]; exact hash_index_lt k)

theorem bucket_inserirNaHash (t : HashTable) (k s : CStr) (ht : t.length = HASH_SIZE) :
    (inserirNaHash t k s).getD (hash_djb2 k % HASH_SIZE) []
      = criarHashItem k s :: t.getD (hash_djb2 k % HASH_SIZE) [] := by
  simp only [inserirNaHash]
  exact getD_set_same t _ _ (by rw [ht]; exact hash_index_lt k)

/-- Lookup after one insert of a key that fits the buffer: the new pair answers for
its own key and every other key is answered as before. -/
theorem encontrar_inserir (t : HashTable) (k' s' k : CStr) (ht : t.length = HASH_SIZE)
    (hk : k'.length < MAX_STR) :
    encontrarSuspeito (inserirNaHash t k' s') k
      = if k' = k then some (strncpy_max s') else encontrarSuspeito t k := by
  by_cases hh : hash_djb2 k' % HASH_SIZE = hash_djb2 k % HASH_SIZE
  · simp only [encontrarSuspeito]
    rw [← hh, bucket_inserirNaHash t k' s' ht]
    simp only [buscarNaLista, criarHashItem, strncpy_max_of_short hk, strcmp_eq_zero_iff]
  · have hne : k' ≠ k := fun h => hh (by rw [h])
    simp only [encontrarSuspeito, inserirNaHash, if_neg hne]
    rw [getD_set_other _ _ _ _ hh]

theorem inserirTodasNaHash_refina (ops : List (CStr × CStr)) (t : HashTable)
    (l : List (CStr × CStr)) (ht : t.length = HASH_SIZE)
    (hops : ∀ op ∈ ops, op.1.length < MAX_STR ∧ op.2.length < MAX_STR)
    (hl : ∀ k, encontrarSuspeito t k = buscarAssociativa l k) :
    ∀ k, encontrarSuspeito (inserirTodasNaHash t ops) k
      = buscarAssociativa (ops.foldl (fun l op => op :: l) l) k := by
  induction ops generalizing t l with
  | nil => exact hl
  | cons op ops ih =>
    have h1 := hops op (List.mem_cons_self _ _)
    apply ih (inserirNaHash t op.1 op.2) (op :: l)
    · rw [length_inserirNaHash, ht]
    · exact fun x hx => hops x (List.mem_cons_of_mem _ hx)
    · intro k
      rw [encontrar_inserir t op.1 op.2 k ht h1.1, strncpy_max_of_short h1.2, hl k]
      obtain ⟨a, b⟩ := op
      simp [buscarAssociativa]

theorem buscarAssociativa_none (l : List (CStr × CStr)) (k : CStr) :
    buscarAssociativa l k = none ↔ ∀ op ∈ l, op.1 ≠ k := by
  induction l with
  | nil => simp [buscarAssociativa]
  | cons op l ih =>
    obtain ⟨a, b⟩ := op
    simp only [buscarAssociativa, List.mem_cons, forall_eq_or_imp]
    split_ifs with h
    · simp [h]
    · simp [h, ih]

theorem mem_listaAssociativa (ops : List (CStr × CStr)) (op : CStr × CStr) :
    op ∈ listaAssociativa ops ↔ op ∈ ops := by
  have : ∀ l : List (CStr × CStr), ops.foldl (fun l op => op :: l) l = ops.reverse ++ l := by
    induction ops with
    | nil => simp
    | cons a as ih => intro l; simp [ih]
  simp [listaAssociativa, this]

theorem encontrar_tabelaVazia (k : CStr) : encontrarSuspeito tabelaVazia k = none := by
  have : tabelaVazia.getD (hash_djb2 k % HASH_SIZE) [] = [] := by
    simp only [tabelaVazia, List.getD_eq_getElem?_getD, List.getElem?_replicate]
    split_ifs <;> rfl
  simp only [encontrarSuspeito, this, buscarNaLista]

theorem listaAssociativa_eq_reverse (ops : List (CStr × CStr)) :
    listaAssociativa ops = ops.reverse := by
  have : ∀ l : List (CStr × CStr), ops.foldl (fun l op => op :: l) l = ops.reverse ++ l := by
    induction ops with
    | nil => simp
    | cons a as ih => intro l; simp [ih]
  simp [listaAssociativa, this]

theorem buscarAssociativa_append (l1 l2 : List (CStr × CStr)) (k : CStr)
    (h : ∀ op ∈ l1, op.1 ≠ k) :
    buscarAssociativa (l1 ++ l2) k = buscarAssociativa l2 k := by
  induction l1 with
  | nil => rfl
  | cons op l ih =>
    obtain ⟨a, b⟩ := op
    have ha : a ≠ k := h (a, b) (List.mem_cons_self _ _)
    simp only [List.cons_append, buscarAssociativa, if_neg ha]
    exact ih (fun x hx => h x (List.mem_cons_of_mem _ hx))

/-! ## C4: a second insert for the same clue shadows the first -/

set_option maxRecDepth 100000 in
/-- C4, as stated, fails: for the clue text of 128 bytes, after the inserts for the
suspects `"A"` and `"B"` the lookup of that text is absent (the stored keys are the
first 127 bytes, which the text does not equal). -/
theorem C4_counterexample :
    encontrarSuspeito
      (inserirNaHash (inserirNaHash tabelaVazia textoLongo [65]) textoLongo [66]) textoLongo
      = none := by
  decide

/-- C4 (amended to a clue text and a suspect `B` shorter than `MAX_STR`): on every
table of `HASH_SIZE` buckets, after `inserirNaHash(c, A)` and then
`inserirNaHash(c, B)` the lookup of `c` gives `B`, the second insert adds exactly one
entry to the total, and the bucket of `c` holds the entry for `B` at its head with the
entry for `A` right behind it, in front of what the bucket held before. -/
theorem C4_shadow_rule (t : HashTable) (c a b : CStr) (ht : t.length = HASH_SIZE)
    (hc : c.length < MAX_STR) (hb : b.length < MAX_STR) :
    encontrarSuspeito (inserirNaHash (inserirNaHash t c a) c b) c = some b ∧
      totalEntradas (inserirNaHash (inserirNaHash t c a) c b)
        = totalEntradas (inserirNaHash t c a) + 1 ∧
      (inserirNaHash (inserirNaHash t c a) c b).getD (hash_djb2 c % HASH_SIZE) []
        = criarHashItem c b :: criarHashItem c a :: t.getD (hash_djb2 c % HASH_SIZE) [] := by
  have ht1 : (inserirNaHash t c a).length = HASH_SIZE := by rw [length_inserirNaHash, ht]
  refine ⟨?_, total_inserirNaHash _ c b ht1, ?_⟩
  · rw [encontrar_inserir _ c b c ht1 hc, if_pos rfl, strncpy_max_of_short hb]
  · rw [bucket_inserirNaHash _ c b ht1, bucket_inserirNaHash t c a ht]

set_option maxRecDepth 100000 in
theorem C4_shadow_rule_witness :
    encontrarSuspeito (inserirNaHash (inserirNaHash tabelaVazia [99] [65]) [99] [66]) [99]
        = some [66] ∧
      totalEntradas (inserirNaHash (inserirNaHash tabelaVazia [99] [65]) [99] [66])
        = totalEntradas (inserirNaHash tabelaVazia [99] [65]) + 1 ∧
      (inserirNaHash (inserirNaHash tabelaVazia [99] [65]) [99] [66]).getD
          (hash_djb2 [99] % HASH_SIZE) []
        = criarHashItem [99] [66] :: criarHashItem [99] [65]
            :: tabelaVazia.getD (hash_djb2 [99] % HASH_SIZE) [] :=
  C4_shadow_rule tabelaVazia [99] [65] [66] (by decide) (by decide) (by decide)

/-! ## C5: the suspect index is a prepend-only association list -/

/-- C5: for every sequence of inserts into the empty table of 31 buckets whose keys
and suspect names are shorter than `MAX_STR`, and every key `k`, `encontrarSuspeito`
answers as the lookup in the prepend-only association list of the same inserts; it
gives the suspect of the most recent insert whose key equals `k` (the insert after
which no later insert uses `k`), and it is absent exactly when no insert used `k`. -/
theorem C5_association_list (ops : List (CStr × CStr))
    (hops : ∀ op ∈ ops, op.1.length < MAX_STR ∧ op.2.length < MAX_STR) (k : CStr) :
    encontrarSuspeito (inserirTodasNaHash tabelaVazia ops) k
        = buscarAssociativa (listaAssociativa ops) k ∧
      (∀ (antes depois : List (CStr × CStr)) (s : CStr),
        ops = antes ++ (k, s) :: depois → (∀ op ∈ depois, op.1 ≠ k) →
          encontrarSuspeito (inserirTodasNaHash tabelaVazia ops) k = some s) ∧
      (encontrarSuspeito (inserirTodasNaHash tabelaVazia ops) k = none
        ↔ ∀ op ∈ ops, op.1 ≠ k) := by
  have href : encontrarSuspeito (inserirTodasNaHash tabelaVazia ops) k
      = buscarAssociativa (listaAssociativa ops) k :=
    inserirTodasNaHash_refina ops tabelaVazia [] (by simp [tabelaVazia]) hops
      (fun k' => by rw [encontrar_tabelaVazia]; rfl) k
  refine ⟨href, ?_, ?_⟩
  · intro antes depois s hsplit hdepois
    rw [href, listaAssociativa_eq_reverse, hsplit, List.reverse_append, List.reverse_cons,
      List.append_assoc, buscarAssociativa_append _ _ _
        (fun op hop => hdepois op (List.mem_reverse.mp hop))]
    simp [buscarAssociativa]
  · rw [href, buscarAssociativa_none]
    constructor
    · intro h op hop
      exact h op ((mem_listaAssociativa ops op).mpr hop)
    · intro h op hop
      exact h op ((mem_listaAssociativa ops op).mp hop)

set_option maxRecDepth 100000 in
theorem C5_association_list_witness :
    encontrarSuspeito (inserirTodasNaHash tabelaVazia [([99], [65]), ([100], [67]), ([99], [66])])
        [99]
        = buscarAssociativa (listaAssociativa [([99], [65]), ([100], [67]), ([99], [66])]) [99] ∧
      (∀ (antes depois : List (CStr × CStr)) (s : CStr),
        [([99], [65]), ([100], [67]), ([99], [66])] = antes ++ ([99], s) :: depois →
          (∀ op ∈ depois, op.1 ≠ [99]) →
          encontrarSuspeito
            (inserirTodasNaHash tabelaVazia [([99], [65]), ([100], [67]), ([99], [66])]) [99]
            = some s) ∧
      (encontrarSuspeito
          (inserirTodasNaHash tabelaVazia [([99], [65]), ([100], [67]), ([99], [66])]) [99] = none
        ↔ ∀ op ∈ [([99], [65]), ([100], [67]), ([99], [66])], op.1 ≠ [99]) :=
  C5_association_list [([99], [65]), ([100], [67]), ([99], [66])] (by decide) [99]

/-! ## C9 and C10: two sessions from the Hall -/

set_option maxRecDepth 100000 in
/-- C9, as stated, fails: after the commands `e, e, s` the ledger holds three clues,
the one of the Escritório included, not only the two the claim lists. -/
theorem C9_counterexample :
    (explorarSalas hall .nil hashTableMain (lit "e\ne\ns\n")).map (fun e => textos e.bst)
        = some [lit "bilhete rasgado com iniciais C.R.", lit "fio de seda vermelho",
            lit "pegada de bota molhada"] ∧
      (explorarSalas hall .nil hashTableMain (lit "e\ne\ns\n")).map (fun e => textos e.bst)
        ≠ some [lit "fio de seda vermelho", lit "pegada de bota molhada"] := by
  decide

set_option maxRecDepth 100000 in
/-- C9 (amended in the clues collected): from the Hall with an empty ledger, the
commands `e, e, s` visit Hall, Biblioteca, Escritório in that order and end in the
Escritório; the ledger holds the three clues of these rooms; accusing `Maria` counts
1 and the verdict is the weak one with that count. -/
theorem C9_scenario_one :
    observar (lit "e\ne\ns\nMaria\n") (lit "Maria")
      = some ([lit "Hall", lit "Biblioteca", lit "Escritório"], escritorio,
          [lit "bilhete rasgado com iniciais C.R.", lit "fio de seda vermelho",
            lit "pegada de bota molhada"],
          1, some (Out.acusacaoFraca 1)) := by
  decide

set_option maxRecDepth 100000 in
/-- C10, as stated, fails: after the commands `d, d, s` the count for `Joao` is 2
(the clue of the Hall and the clue of the Jardim), and the accusation of `Joao` is
sustained. -/
theorem C10_counterexample :
    observar (lit "d\nd\ns\nJoao\n") (lit "Joao")
      = some ([lit "Hall", lit "Sala de Jantar", lit "Jardim"], jardim,
          [lit "marca de copo com monograma", lit "pegada de bota molhada",
            lit "sementes pisoteadas"],
          2, some (Out.acusacaoSustentada (lit "Joao"))) := by
  decide

set_option maxRecDepth 100000 in
/-- C10 (amended in the clues collected and in the count for `Joao`): from the Hall
with an empty ledger, the commands `d, d, s` visit Hall, Sala de Jantar, Jardim in that
order; the ledger holds the three clues of these rooms; accusing `Carlos` counts 1 and
the verdict is the weak one, and the count for `Joao` in the same ledger is 2, which
reaches the threshold. -/
theorem C10_scenario_two :
    observar (lit "d\nd\ns\nCarlos\n") (lit "Carlos")
        = some ([lit "Hall", lit "Sala de Jantar", lit "Jardim"], jardim,
            [lit "marca de copo com monograma", lit "pegada de bota molhada",
              lit "sementes pisoteadas"],
            1, some (Out.acusacaoFraca 1)) ∧
      (explorarSalas hall .nil hashTableMain (lit "d\nd\ns\nCarlos\n")).map
          (fun e => contarPistasParaSuspeito e.bst hashTableMain (lit "Joao"))
        = some 2 := by
  decide

/-! ## C8: the verdict -/

theorem fgetsAux_linha (n : Nat) (nome resto : List Nat) (hn : ∀ b ∈ nome, b ≠ 10)
    (hlen : nome.length < n) :
    fgetsAux n (nome ++ 10 :: resto) = (nome ++ [10], resto) := by
  induction nome generalizing n with
  | nil =>
    cases n with
    | zero => simp at hlen
    | succ m => simp [fgetsAux]
  | cons a as ih =>
    cases n with
    | zero => simp at hlen
    | succ m =>
      simp only [List.length_cons, Nat.add_lt_add_iff_right] at hlen
      have ha : a ≠ 10 := hn a (List.mem_cons_self _ _)
      have has : ∀ b ∈ as, b ≠ 10 := fun b hb => hn b (List.mem_cons_of_mem _ hb)
      simp [fgetsAux, ha, ih m has hlen]

theorem fgetsAux_cheio (n : Nat) (nome resto : List Nat) (hn : ∀ b ∈ nome, b ≠ 10)
    (hlen : nome.length = n) :
    fgetsAux n (nome ++ resto) = (nome, resto) := by
  induction nome generalizing n with
  | nil =>
    simp only [List.length_nil] at hlen
    subst hlen
    simp [fgetsAux]
  | cons a as ih =>
    cases n with
    | zero => simp at hlen
    | succ m =>
      simp only [List.length_cons, Nat.add_right_cancel_iff] at hlen
      have ha : a ≠ 10 := hn a (List.mem_cons_self _ _)
      have has : ∀ b ∈ as, b ≠ 10 := fun b hb => hn b (List.mem_cons_of_mem _ hb)
      simp [fgetsAux, ha, ih m has hlen]

theorem fgetsAux_fim (n : Nat) (nome : List Nat) (hn : ∀ b ∈ nome, b ≠ 10)
    (hlen : nome.length ≤ n) :
    fgetsAux n nome = (nome, []) := by
  induction nome generalizing n with
  | nil => cases n <;> simp [fgetsAux]
  | cons a as ih =>
    cases n with
    | zero => simp at hlen
    | succ m =>
      simp only [List.length_cons, Nat.add_le_add_iff_right] at hlen
      have ha : a ≠ 10 := hn a (List.mem_cons_self _ _)
      have has : ∀ b ∈ as, b ≠ 10 := fun b hb => hn b (List.mem_cons_of_mem _ hb)
      simp [fgetsAux, ha, ih m has hlen]

theorem cstr_sem_nul (l : List Nat) (h : ∀ b ∈ l, b ≠ 0) : cstr l = l := by
  simp only [cstr, List.takeWhile_eq_self_iff]
  intro b hb
  simpa using h b hb

theorem removerNewline_linha (nome : CStr) : removerNewline (nome ++ [10]) = nome := by
  simp [removerNewline]

theorem removerNewline_sem_newline (nome : CStr) (h : ∀ b ∈ nome, b ≠ 10) :
    removerNewline nome = nome := by
  unfold removerNewline
  split_ifs with hc
  · exfalso
    obtain ⟨-, hl⟩ := hc
    exact h 10 (List.mem_of_getLast?_eq_some hl) rfl
  · rfl

/-- The name that `verificarSuspeitoFinal` accuses when the stream starts with a line
made of `nome` and a newline, `nome` fitting the buffer and free of NUL. -/
theorem acusado_da_linha (nome resto : List Nat) (hn : ∀ b ∈ nome, b ≠ 0 ∧ b ≠ 10)
    (hlen : nome.length < MAX_STR) :
    ∃ r, fgets MAX_STR (nome ++ 10 :: resto) = some r ∧ removerNewline (cstr r.1) = nome := by
  have h10 : ∀ b ∈ nome, b ≠ 10 := fun b hb => (hn b hb).2
  have h0 : ∀ b ∈ nome, b ≠ 0 := fun b hb => (hn b hb).1
  have hf : fgets MAX_STR (nome ++ 10 :: resto)
      = some (fgetsAux (MAX_STR - 1) (nome ++ 10 :: resto)) := by
    cases nome <;> rfl
  simp only [MAX_STR] at hlen
  rcases Nat.lt_or_ge nome.length 127 with hlt | hge
  · refine ⟨_, hf, ?_⟩
    rw [show MAX_STR - 1 = 127 from rfl, fgetsAux_linha 127 nome resto h10 hlt]
    have : ∀ b ∈ nome ++ [10], b ≠ 0 := by
      intro b hb
      rcases List.mem_append.mp hb with hb' | hb'
      · exact h0 b hb'
      · simp at hb'; omega
    rw [cstr_sem_nul _ this, removerNewline_linha]
  · refine ⟨_, hf, ?_⟩
    rw [show MAX_STR - 1 = 127 from rfl, fgetsAux_cheio 127 nome (10 :: resto) h10 (by omega)]
    rw [cstr_sem_nul _ h0, removerNewline_sem_newline _ h10]

/-- The name accused when the stream ends after `nome`, without a newline. -/
theorem acusado_do_fim (nome : List Nat) (hn : ∀ b ∈ nome, b ≠ 0 ∧ b ≠ 10)
    (hne : nome ≠ []) (hlen : nome.length < MAX_STR) :
    ∃ r, fgets MAX_STR nome = some r ∧ removerNewline (cstr r.1) = nome := by
  have h10 : ∀ b ∈ nome, b ≠ 10 := fun b hb => (hn b hb).2
  have h0 : ∀ b ∈ nome, b ≠ 0 := fun b hb => (hn b hb).1
  have hf : fgets MAX_STR nome = some (fgetsAux (MAX_STR - 1) nome) := by
    cases nome with
    | nil => exact absurd rfl hne
    | cons a as => rfl
  simp only [MAX_STR] at hlen
  refine ⟨_, hf, ?_⟩
  rw [show MAX_STR - 1 = 127 from rfl, fgetsAux_fim 127 nome h10 (by omega)]
  rw [cstr_sem_nul _ h0, removerNewline_sem_newline _ h10]

set_option maxRecDepth 100000 in
/-- C8, as stated, fails: on a ledger of two clues that the table gives to the suspect
whose name is 127 times `'a'`, the accusation line of 128 times `'a'` names a suspect
to whom no clue points (count 0), yet the verdict printed is the sustained one, for
the first 127 bytes of the line. -/
theorem C8_counterexample :
    contarPistasParaSuspeito ledgerDuasPistas tabelaDuasPistas textoLongo = 0 ∧
      (verificarSuspeitoFinal ledgerDuasPistas tabelaDuasPistas (textoLongo ++ [10])).2.getLast?
        = some (Out.acusacaoSustentada nome127) := by
  decide

/-- C8 (amended to accusation lines whose name, the bytes before the newline, is
shorter than `MAX_STR` and holds no NUL): on the empty ledger `verificarSuspeitoFinal`
prints only the insufficient-evidence line and reads nothing; on a non-empty ledger,
for a line that ends in a newline or at the end of the stream, it prints the listing
and the prompt, accuses exactly the name of the line (only the newline removed),
reports `contarPistasParaSuspeito` for that name, and the verdict is the sustained one
exactly when that count is at least 2, the weak one with that count otherwise. -/
theorem C8_verdict_rule (p : CStr) (esq dir : PistaBST) (hashTable : HashTable)
    (nome resto stdin : List Nat) (hn : ∀ b ∈ nome, b ≠ 0 ∧ b ≠ 10)
    (hlen : nome.length < MAX_STR) :
    verificarSuspeitoFinal .nil hashTable stdin = (stdin, [Out.pistasInsuficientes]) ∧
      (verificarSuspeitoFinal (.node p esq dir) hashTable (nome ++ 10 :: resto)).2
        = Out.cabecalhoPistas :: listarPistasInOrder (.node p esq dir) ++ [Out.acusarPrompt]
          ++ [Out.pistasQueVinculam nome
                (contarPistasParaSuspeito (.node p esq dir) hashTable nome),
              if 2 ≤ contarPistasParaSuspeito (.node p esq dir) hashTable nome
              then Out.acusacaoSustentada nome
              else Out.acusacaoFraca
                (contarPistasParaSuspeito (.node p esq dir) hashTable nome)] ∧
      (nome ≠ [] →
        (verificarSuspeitoFinal (.node p esq dir) hashTable nome).2
          = (verificarSuspeitoFinal (.node p esq dir) hashTable (nome ++ 10 :: resto)).2) ∧
      (Out.acusacaoSustentada nome
          ∈ (verificarSuspeitoFinal (.node p esq dir) hashTable (nome ++ 10 :: resto)).2
        ↔ 2 ≤ contarPistasParaSuspeito (.node p esq dir) hashTable nome) := by
  obtain ⟨r, hr, hnome⟩ := acusado_da_linha nome resto hn hlen
  have houtput : (verificarSuspeitoFinal (.node p esq dir) hashTable (nome ++ 10 :: resto)).2
      = Out.cabecalhoPistas :: listarPistasInOrder (.node p esq dir) ++ [Out.acusarPrompt]
        ++ [Out.pistasQueVinculam nome
              (contarPistasParaSuspeito (.node p esq dir) hashTable nome),
            if 2 ≤ contarPistasParaSuspeito (.node p esq dir) hashTable nome
            then Out.acusacaoSustentada nome
            else Out.acusacaoFraca
              (contarPistasParaSuspeito (.node p esq dir) hashTable nome)] := by
    simp only [verificarSuspeitoFinal, hr, hnome, ge_iff_le]
  refine ⟨rfl, houtput, ?_, ?_⟩
  · intro hne
    obtain ⟨r', hr', hnome'⟩ := acusado_do_fim nome hn hne hlen
    rw [houtput]
    simp only [verificarSuspeitoFinal, hr', hnome', ge_iff_le]
  · rw [houtput, listar_eq_map]
    by_cases h2 : 2 ≤ contarPistasParaSuspeito (.node p esq dir) hashTable nome
    · simp [h2]
    · simp [h2]

set_option maxRecDepth 100000 in
theorem C8_verdict_rule_witness :
    verificarSuspeitoFinal .nil hashTableMain [74, 10] = ([74, 10], [Out.pistasInsuficientes]) ∧
      (verificarSuspeitoFinal (.node [99] .nil .nil) hashTableMain ([74] ++ 10 :: [])).2
        = Out.cabecalhoPistas :: listarPistasInOrder (.node [99] .nil .nil) ++ [Out.acusarPrompt]
          ++ [Out.pistasQueVinculam [74]
                (contarPistasParaSuspeito (.node [99] .nil .nil) hashTableMain [74]),
              if 2 ≤ contarPistasParaSuspeito (.node [99] .nil .nil) hashTableMain [74]
              then Out.acusacaoSustentada [74]
              else Out.acusacaoFraca
                (contarPistasParaSuspeito (.node [99] .nil .nil) hashTableMain [74])] ∧
      (([74] : List Nat) ≠ [] →
        (verificarSuspeitoFinal (.node [99] .nil .nil) hashTableMain [74]).2
          = (verificarSuspeitoFinal (.node [99] .nil .nil) hashTableMain ([74] ++ 10 :: [])).2) ∧
      (Out.acusacaoSustentada [74]
          ∈ (verificarSuspeitoFinal (.node [99] .nil .nil) hashTableMain ([74] ++ 10 :: [])).2
        ↔ 2 ≤ contarPistasParaSuspeito (.node [99] .nil .nil) hashTableMain [74]) :=
  C8_verdict_rule [99] .nil .nil hashTableMain [74] [] [74, 10] (by decide) (by decide)

/-! ## One pass of the explorer -/

theorem regraPista_short (nome : CStr) : (regraPista nome).length < MAX_STR := by
  unfold regraPista
  split_ifs <;> decide

theorem existePista_inserir (t : PistaBST) {c : CStr} (h0 : ¬ c.length = 0)
    (hc : c.length < MAX_STR) : existePista (inserirPista t c).1 c = 1 := by
  induction t with
  | nil =>
    rw [inserirPista_nil, if_neg h0]
    simp [existePista, strncpy_max_of_short hc, strcmp_self]
  | node p esq dir ihe ihd =>
    rw [inserirPista_node, if_neg h0]
    split_ifs with h1 h2
    · simp [existePista, h1]
    · simp [existePista, h1, h2, ihe]
    · simp [existePista, h1, h2, ihd]

/-- The clue check run a second time changes nothing. -/
theorem coletar_idem (b : PistaBST) {c : CStr} (hc : c.length < MAX_STR) :
    (coletar (coletar b c).1 c).1 = (coletar b c).1 := by
  by_cases h0 : c.length = 0
  · simp [coletar, h0]
  · have hpos : c.length > 0 := Nat.pos_of_ne_zero h0
    by_cases he : existePista b c = 0
    · have h1 : (coletar b c).1 = (inserirPista b c).1 := by simp [coletar, hpos, he]
      rw [h1]
      have h2 := existePista_inserir b h0 hc
      simp [coletar, hpos, h2]
    · have h1 : (coletar b c).1 = b := by simp [coletar, hpos, he]
      rw [h1, h1]

theorem inserirPista_sem_aviso (t : PistaBST) (c : CStr) :
    (inserirPista t c).2.filter avisoNavegacao = [] := by
  induction t with
  | nil =>
    rw [inserirPista_nil]
    split_ifs <;> rfl
  | node p esq dir ihe ihd =>
    rw [inserirPista_node]
    split_ifs
    · rfl
    · rfl
    · exact ihe
    · exact ihd

theorem coletar_sem_aviso (b : PistaBST) (c : CStr) :
    (coletar b c).2.filter avisoNavegacao = [] := by
  unfold coletar
  split_ifs
  · simp [List.filter_cons, avisoNavegacao, inserirPista_sem_aviso]
  · rfl
  · rfl

/-! ## C17: the empty clue text -/

/-- C17: for every ledger, `inserirPista` with the empty text returns the same ledger
and prints nothing (no node is created, the count of nodes is the same), and the empty
text is the text of no node of a ledger built by insertions, whatever the texts
inserted. -/
theorem C17_empty_clue_guard (t : PistaBST) (ps : List CStr) :
    inserirPista t [] = (t, []) ∧
      numNos (inserirPista t []).1 = numNos t ∧
      [] ∉ textos (inserirTodas .nil ps) ∧
      existePista (inserirTodas .nil ps) [] = 0 := by
  have ho : Ordenada (inserirTodas .nil ps) := ordenada_inserirTodas ps trivial
  refine ⟨inserirPista_vazia t, by rw [inserirPista_vazia], vazia_not_mem ho, ?_⟩
  rcases existePista_zero_or_one (inserirTodas .nil ps) [] with h | h
  · exact h
  · exact absurd ((existePista_iff [] ho).mp h) (vazia_not_mem ho)

/-! ## C11: a move to a room that does not exist -/

/-- C11: at a room with no left child, for every ledger, a pass whose command is `e`
keeps the loop going at the same room, with the ledger of the clue check, and prints
after the prompt exactly one line, the notice that there is no room on the left; the
same holds on the right for the command `d`; and at a leaf every pass, whatever is
read, leaves the current room the same. The pass is a total function: it always gives
a state whose room is a room. -/
theorem C11_navigation_boundary (nome : CStr) (esq dir : Sala) (bst : PistaBST)
    (stdin escolha resto : List Nat) (hf : fgets 8 stdin = some (escolha, resto)) :
    (lerComando escolha = 101 →
      iteracao nome .null dir bst stdin
          = (true, ⟨.mk nome .null dir, (coletar bst (regraPista nome)).1, resto,
              Out.voceEstaNaSala nome :: (coletar bst (regraPista nome)).2
                ++ [Out.escolhaPrompt] ++ [Out.semSalaEsquerda]⟩) ∧
        (iteracao nome .null dir bst stdin).2.saida.filter avisoNavegacao
          = [Out.semSalaEsquerda]) ∧
      (lerComando escolha = 100 →
        iteracao nome esq .null bst stdin
            = (true, ⟨.mk nome esq .null, (coletar bst (regraPista nome)).1, resto,
                Out.voceEstaNaSala nome :: (coletar bst (regraPista nome)).2
                  ++ [Out.escolhaPrompt] ++ [Out.semSalaDireita]⟩) ∧
          (iteracao nome esq .null bst stdin).2.saida.filter avisoNavegacao
            = [Out.semSalaDireita]) ∧
      (∀ s : List Nat, (iteracao nome .null .null bst s).2.atual = .mk nome .null .null) := by
  refine ⟨?_, ?_, ?_⟩
  · intro he
    have h : iteracao nome .null dir bst stdin
        = (true, ⟨.mk nome .null dir, (coletar bst (regraPista nome)).1, resto,
            Out.voceEstaNaSala nome :: (coletar bst (regraPista nome)).2
              ++ [Out.escolhaPrompt] ++ [Out.semSalaEsquerda]⟩) := by
      simp [iteracao, hf, he]
    refine ⟨h, ?_⟩
    rw [h]
    simp [List.filter_cons, List.filter_append, avisoNavegacao, coletar_sem_aviso]
  · intro hd
    have h : iteracao nome esq .null bst stdin
        = (true, ⟨.mk nome esq .null, (coletar bst (regraPista nome)).1, resto,
            Out.voceEstaNaSala nome :: (coletar bst (regraPista nome)).2
              ++ [Out.escolhaPrompt] ++ [Out.semSalaDireita]⟩) := by
      simp [iteracao, hf, hd]
    refine ⟨h, ?_⟩
    rw [h]
    simp [List.filter_cons, List.filter_append, avisoNavegacao, coletar_sem_aviso]
  · intro s
    simp only [iteracao]
    cases fgets 8 s with
    | none => rfl
    | some r =>
      simp only
      split_ifs <;> rfl

theorem C11_navigation_boundary_witness :
    (lerComando [101, 10] = 101 →
      iteracao [74] .null .null .nil [101, 10]
          = (true, ⟨.mk [74] .null .null, (coletar .nil (regraPista [74])).1, [],
              Out.voceEstaNaSala [74] :: (coletar .nil (regraPista [74])).2
                ++ [Out.escolhaPrompt] ++ [Out.semSalaEsquerda]⟩) ∧
        (iteracao [74] .null .null .nil [101, 10]).2.saida.filter avisoNavegacao
          = [Out.semSalaEsquerda]) ∧
      (lerComando [101, 10] = 100 →
        iteracao [74] .null .null .nil [101, 10]
            = (true, ⟨.mk [74] .null .null, (coletar .nil (regraPista [74])).1, [],
                Out.voceEstaNaSala [74] :: (coletar .nil (regraPista [74])).2
                  ++ [Out.escolhaPrompt] ++ [Out.semSalaDireita]⟩) ∧
          (iteracao [74] .null .null .nil [101, 10]).2.saida.filter avisoNavegacao
            = [Out.semSalaDireita]) ∧
      (∀ s : List Nat, (iteracao [74] .null .null .nil s).2.atual = .mk [74] .null .null) :=
  C11_navigation_boundary [74] .null .null .nil [101, 10] [101, 10] [] (by decide)

/-! ## C13: the command of a line -/

/-- A pass that reads `escolha` does what the byte found by `lerComando` commands. -/
theorem iteracao_eq_passo (nome : CStr) (esq dir : Sala) (bst : PistaBST)
    (stdin escolha resto : List Nat) (hf : fgets 8 stdin = some (escolha, resto)) :
    iteracao nome esq dir bst stdin
      = passoDoComando (comandoDoByte (lerComando escolha)) nome esq dir bst resto := by
  simp only [iteracao, hf, passoDoComando, comandoDoByte]
  split_ifs
  · rfl
  · cases esq <;> rfl
  · cases dir <;> rfl
  · rfl

theorem lerComando_eq_find (l : List Nat) :
    lerComando l
      = match l.find? (fun b => !isspace b) with
        | some b => tolower b
        | none => 0 := by
  induction l with
  | nil => rfl
  | cons x xs ih =>
    by_cases hx : x = 0
    · subst hx
      simp [lerComando, List.find?_cons, isspace, tolower]
    · by_cases hsp : isspace x = true
      · simp [lerComando, List.find?_cons, hx, hsp, ih]
      · simp [lerComando, List.find?_cons, hx, hsp]

theorem comandoDoByte_tolower (b : Nat) :
    comandoDoByte (tolower b)
      = if b = 101 ∨ b = 69 then Comando.esquerda
        else if b = 100 ∨ b = 68 then Comando.direita
        else if b = 115 ∨ b = 83 then Comando.sair
        else Comando.invalido := by
  unfold comandoDoByte tolower
  split_ifs <;> first | rfl | omega

theorem comandoDoByte_lerComando (l : List Nat) :
    comandoDoByte (lerComando l) = comandoDaLinha l := by
  rw [lerComando_eq_find]
  unfold comandoDaLinha
  cases l.find? (fun b => !isspace b) with
  | none => rfl
  | some b => exact comandoDoByte_tolower b

theorem comandoDaLinha_newline (l : List Nat) :
    comandoDaLinha (l ++ [10]) = comandoDaLinha l := by
  unfold comandoDaLinha
  rw [List.find?_append]
  cases l.find? (fun b => !isspace b) with
  | none => simp [isspace]
  | some b => simp

theorem fgets_linha_curta (linha resto : List Nat) (hn : ∀ b ∈ linha, b ≠ 10)
    (hlen : linha.length ≤ 6) :
    fgets 8 (linha ++ 10 :: resto) = some (linha ++ [10], resto) := by
  have hf : fgets 8 (linha ++ 10 :: resto) = some (fgetsAux 7 (linha ++ 10 :: resto)) := by
    cases linha <;> rfl
  rw [hf, fgetsAux_linha 7 linha resto hn (by omega)]

set_option maxRecDepth 100000 in
/-- C13, as stated, fails: at the Hall, for the line of seven blanks and an `e`, whose
first byte that is not white space is `e` (left), one pass consumes only the seven
blanks, leaves `e` and the newline in the stream, stays at the Hall and prints the
invalid-command notice. -/
theorem C13_counterexample :
    comandoDaLinha (lit "       e") = Comando.esquerda ∧
      (iteracao (lit "Hall") biblioteca salaJantar .nil (lit "       e\n")).2.stdin
        = lit "e\n" ∧
      (iteracao (lit "Hall") biblioteca salaJantar .nil (lit "       e\n")).2.atual = hall ∧
      (iteracao (lit "Hall") biblioteca salaJantar .nil (lit "       e\n")).2.saida.getLast?
        = some Out.comandoInvalido := by
  decide

/-- C13 (amended to lines of at most 6 bytes before the newline, which with the
newline fit the buffer `escolha`): for every such line, at every room and ledger, one
pass consumes exactly the line and its newline and does what the first byte of the
line that is not white space commands, case-insensitively: `e`/`E` left, `d`/`D`
right, `s`/`S` stop, anything else or no such byte invalid. The same holds for a
non-empty last line that the end of the stream closes. -/
theorem C13_command_decoding (nome : CStr) (esq dir : Sala) (bst : PistaBST)
    (linha resto : List Nat) (hn : ∀ b ∈ linha, b ≠ 10) (hlen : linha.length ≤ 6) :
    fgets 8 (linha ++ 10 :: resto) = some (linha ++ [10], resto) ∧
      iteracao nome esq dir bst (linha ++ 10 :: resto)
        = passoDoComando (comandoDaLinha linha) nome esq dir bst resto ∧
      (iteracao nome esq dir bst (linha ++ 10 :: resto)).2.stdin = resto ∧
      (linha ≠ [] →
        iteracao nome esq dir bst linha
          = passoDoComando (comandoDaLinha linha) nome esq dir bst []) := by
  have hf := fgets_linha_curta linha resto hn hlen
  have hit : iteracao nome esq dir bst (linha ++ 10 :: resto)
      = passoDoComando (comandoDaLinha linha) nome esq dir bst resto := by
    rw [iteracao_eq_passo nome esq dir bst _ _ _ hf, comandoDoByte_lerComando,
      comandoDaLinha_newline]
  refine ⟨hf, hit, ?_, ?_⟩
  · rw [hit]
    unfold passoDoComando
    cases comandoDaLinha linha
    · cases esq <;> rfl
    · cases dir <;> rfl
    · rfl
    · rfl
  · intro hne
    have hf2 : fgets 8 linha = some (linha, []) := by
      have : fgets 8 linha = some (fgetsAux 7 linha) := by
        cases linha with
        | nil => exact absurd rfl hne
        | cons a as => rfl
      rw [this, fgetsAux_fim 7 linha hn (by omega)]
    rw [iteracao_eq_passo nome esq dir bst _ _ _ hf2, comandoDoByte_lerComando]

set_option maxRecDepth 100000 in
theorem C13_command_decoding_witness :
    fgets 8 ([32, 69] ++ 10 :: [100, 10]) = some ([32, 69] ++ [10], [100, 10]) ∧
      iteracao (lit "Hall") biblioteca salaJantar .nil ([32, 69] ++ 10 :: [100, 10])
        = passoDoComando (comandoDaLinha [32, 69]) (lit "Hall") biblioteca salaJantar .nil
            [100, 10] ∧
      (iteracao (lit "Hall") biblioteca salaJantar .nil ([32, 69] ++ 10 :: [100, 10])).2.stdin
        = [100, 10] ∧
      (([32, 69] : List Nat) ≠ [] →
        iteracao (lit "Hall") biblioteca salaJantar .nil [32, 69]
          = passoDoComando (comandoDaLinha [32, 69]) (lit "Hall") biblioteca salaJantar .nil
              []) :=
  C13_command_decoding (lit "Hall") biblioteca salaJantar .nil [32, 69] [100, 10]
    (by decide) (by decide)

/-! ## C16: the hash function -/

theorem shift_form (w h : Nat) : ((h <<< 5) % 2 ^ w + h) % 2 ^ w = (h * 33) % 2 ^ w := by
  rw [Nat.shiftLeft_eq, Nat.mod_add_mod]
  have h33 : h * 2 ^ 5 + h = h * 33 := by omega
  rw [h33]

theorem hash_passo_w_mod (w x c : Nat) (hc : c < 256) :
    hash_passo_w w (x % 2 ^ w) c = (x * 33 + c) % 2 ^ w := by
  unfold hash_passo_w
  rw [shift_form, Nat.mod_add_mod, Nat.mod_eq_of_lt hc]
  rw [Nat.add_mod, Nat.mul_mod, Nat.mod_mod, ← Nat.mul_mod, ← Nat.add_mod]

theorem hash_fold_w (w : Nat) (str : CStr) (hbytes : ∀ b ∈ str, b < 256) (a : Nat) :
    str.foldl (hash_passo_w w) (a % 2 ^ w)
      = (str.foldl (fun h b => h * 33 + b) a) % 2 ^ w := by
  induction str generalizing a with
  | nil => rfl
  | cons c cs ih =>
    have hc : c < 256 := hbytes c (List.mem_cons_self _ _)
    have hcs : ∀ b ∈ cs, b < 256 := fun b hb => hbytes b (List.mem_cons_of_mem _ hb)
    simp only [List.foldl_cons]
    rw [hash_passo_w_mod w a c hc, ih hcs]

theorem hash_fold_mod (w : Nat) (str : CStr) (a : Nat) :
    str.foldl (fun h b => (h * 33 + b) % 2 ^ w) (a % 2 ^ w)
      = (str.foldl (fun h b => h * 33 + b) a) % 2 ^ w := by
  induction str generalizing a with
  | nil => rfl
  | cons c cs ih =>
    simp only [List.foldl_cons]
    have : (a % 2 ^ w * 33 + c) % 2 ^ w = (a * 33 + c) % 2 ^ w := by
      rw [Nat.add_mod, Nat.mul_mod, Nat.mod_mod, ← Nat.mul_mod, ← Nat.add_mod]
    rw [this, ih]

theorem hash_djb2_eq_w (str : CStr) : hash_djb2 str = hash_djb2_w 64 str := rfl

/-- C16: for every byte string, `hash_djb2` is the left fold of `h * 33 + byte` over
its bytes from the seed 5381, reduced modulo `2 ^ 64` at every step or, to the same
effect, once at the end; for every width `w` of `unsigned long` the function is that
fold modulo `2 ^ w`, and the shift form `(h << 5) + h` is `h * 33` modulo `2 ^ w`.
The bucket index `hash_djb2 key % 31` is at most 30; it is the index of the bucket
that `encontrarSuspeito` walks and of the only bucket that `inserirNaHash` changes,
and it depends on the key alone. -/
theorem C16_hash_function (str : CStr) (hbytes : ∀ b ∈ str, b < 256) :
    hash_djb2 str = str.foldl (fun h b => (h * 33 + b) % 2 ^ 64) 5381 ∧
      hash_djb2 str = (str.foldl (fun h b => h * 33 + b) 5381) % 2 ^ 64 ∧
      (∀ w : Nat, hash_djb2_w w str = (str.foldl (fun h b => h * 33 + b) 5381) % 2 ^ w) ∧
      hash_djb2 str = hash_djb2_w 64 str ∧
      (∀ w h : Nat, ((h <<< 5) % 2 ^ w + h) % 2 ^ w = (h * 33) % 2 ^ w) ∧
      hash_djb2 str % HASH_SIZE ≤ 30 ∧
      (∀ t : HashTable,
        encontrarSuspeito t str = buscarNaLista (t.getD (hash_djb2 str % HASH_SIZE) []) str) ∧
      (∀ (t : HashTable) (s : CStr), t.length = HASH_SIZE →
        (inserirNaHash t str s).getD (hash_djb2 str % HASH_SIZE) []
            = criarHashItem str s :: t.getD (hash_djb2 str % HASH_SIZE) [] ∧
          ∀ i : Nat, i ≠ hash_djb2 str % HASH_SIZE →
            (inserirNaHash t str s).getD i [] = t.getD i []) ∧
      (∀ k : CStr, k = str → hash_djb2 k % HASH_SIZE = hash_djb2 str % HASH_SIZE) := by
  have hw : ∀ w : Nat, hash_djb2_w w str
      = (str.foldl (fun h b => h * 33 + b) 5381) % 2 ^ w :=
    fun w => hash_fold_w w str hbytes 5381
  have h64 : hash_djb2 str = (str.foldl (fun h b => h * 33 + b) 5381) % 2 ^ 64 := by
    rw [hash_djb2_eq_w, hw 64]
  refine ⟨?_, h64, hw, rfl, fun w h => shift_form w h, ?_, fun t => rfl, ?_, ?_⟩
  · have hfold := hash_fold_mod 64 str 5381
    rw [show (5381 : Nat) % 2 ^ 64 = 5381 from by norm_num] at hfold
    rw [h64, hfold]
  · have := hash_index_lt str
    simp only [HASH_SIZE] at this ⊢
    omega
  · intro t s ht
    refine ⟨bucket_inserirNaHash t str s ht, fun i hi => ?_⟩
    simp only [inserirNaHash]
    exact getD_set_other t _ i _ (fun h => hi h.symm)
  · intro k hk
    rw [hk]

set_option maxRecDepth 100000 in
theorem C16_hash_function_witness :
    hash_djb2 [72, 195] = [72, 195].foldl (fun h b => (h * 33 + b) % 2 ^ 64) 5381 ∧
      hash_djb2 [72, 195] = ([72, 195].foldl (fun h b => h * 33 + b) 5381) % 2 ^ 64 ∧
      (∀ w : Nat,
        hash_djb2_w w [72, 195] = ([72, 195].foldl (fun h b => h * 33 + b) 5381) % 2 ^ w) ∧
      hash_djb2 [72, 195] = hash_djb2_w 64 [72, 195] ∧
      (∀ w h : Nat, ((h <<< 5) % 2 ^ w + h) % 2 ^ w = (h * 33) % 2 ^ w) ∧
      hash_djb2 [72, 195] % HASH_SIZE ≤ 30 ∧
      (∀ t : HashTable,
        encontrarSuspeito t [72, 195]
          = buscarNaLista (t.getD (hash_djb2 [72, 195] % HASH_SIZE) []) [72, 195]) ∧
      (∀ (t : HashTable) (s : CStr), t.length = HASH_SIZE →
        (inserirNaHash t [72, 195] s).getD (hash_djb2 [72, 195] % HASH_SIZE) []
            = criarHashItem [72, 195] s :: t.getD (hash_djb2 [72, 195] % HASH_SIZE) [] ∧
          ∀ i : Nat, i ≠ hash_djb2 [72, 195] % HASH_SIZE →
            (inserirNaHash t [72, 195] s).getD i [] = t.getD i []) ∧
      (∀ k : CStr, k = [72, 195] →
        hash_djb2 k % HASH_SIZE = hash_djb2 [72, 195] % HASH_SIZE) :=
  C16_hash_function [72, 195] (by decide)

/-! ## The loop of the explorer ends -/

theorem explorarLoop_null (n : Nat) (b : PistaBST) (s : List Nat) :
    explorarLoop (n + 1) .null b s = some ⟨.null, b, s, []⟩ := rfl

theorem explorarLoop_mk (n : Nat) (nome : CStr) (esq dir : Sala) (b : PistaBST)
    (s : List Nat) :
    explorarLoop (n + 1) (.mk nome esq dir) b s
      = if (iteracao nome esq dir b s).1 then
          (explorarLoop n (iteracao nome esq dir b s).2.atual (iteracao nome esq dir b s).2.bst
            (iteracao nome esq dir b s).2.stdin).map
            (fun f => { f with saida := (iteracao nome esq dir b s).2.saida ++ f.saida })
        else some (iteracao nome esq dir b s).2 := rfl

theorem fgetsAux_resto_le (k : Nat) (s : List Nat) : (fgetsAux k s).2.length ≤ s.length := by
  induction s generalizing k with
  | nil => cases k <;> simp [fgetsAux]
  | cons c cs ih =>
    cases k with
    | zero => simp [fgetsAux]
    | succ j =>
      simp only [fgetsAux]
      split_ifs
      · simp
      · have := ih j
        simp only [List.length_cons]
        omega

theorem fgets_resto_lt {n : Nat} {stdin escolha resto : List Nat}
    (h : fgets (n + 2) stdin = some (escolha, resto)) : resto.length < stdin.length := by
  cases stdin with
  | nil => simp [fgets] at h
  | cons c cs =>
    simp only [fgets, Option.some.injEq] at h
    have hr : resto = (fgetsAux (n + 1) (c :: cs)).2 := by
      have h2 : fgetsAux (n + 1) (c :: cs) = (escolha, resto) := h
      rw [h2]
    rw [hr]
    simp only [fgetsAux]
    split_ifs
    · simp
    · have := fgetsAux_resto_le n cs
      simp only [List.length_cons]
      omega

theorem passoDoComando_resto (cmd : Comando) (nome : CStr) (esq dir : Sala) (bst : PistaBST)
    (resto : List Nat) :
    passoDoComando cmd nome esq dir bst resto
      = ((passoDoComando cmd nome esq dir bst []).1,
          { (passoDoComando cmd nome esq dir bst []).2 with stdin := resto }) := by
  unfold passoDoComando
  cases cmd
  · cases esq <;> rfl
  · cases dir <;> rfl
  · rfl
  · rfl

theorem iteracao_stdin_lt (nome : CStr) (esq dir : Sala) (bst : PistaBST) (stdin : List Nat)
    (h : (iteracao nome esq dir bst stdin).1 = true) :
    (iteracao nome esq dir bst stdin).2.stdin.length < stdin.length := by
  cases hf : fgets 8 stdin with
  | none => simp [iteracao, hf] at h
  | some r =>
    obtain ⟨escolha, resto⟩ := r
    rw [iteracao_eq_passo nome esq dir bst stdin escolha resto hf, passoDoComando_resto]
    exact fgets_resto_lt hf

theorem explorarLoop_total (n : Nat) (a : Sala) (b : PistaBST) (s : List Nat)
    (hn : s.length < n) : ∃ e, explorarLoop n a b s = some e := by
  induction n generalizing a b s with
  | zero => omega
  | succ k ih =>
    cases a with
    | null => exact ⟨_, rfl⟩
    | mk nome esq dir =>
      rw [explorarLoop_mk]
      by_cases hp : (iteracao nome esq dir b s).1 = true
      · have hlt := iteracao_stdin_lt nome esq dir b s hp
        obtain ⟨e, he⟩ := ih (iteracao nome esq dir b s).2.atual (iteracao nome esq dir b s).2.bst
          (iteracao nome esq dir b s).2.stdin (by omega)
        rw [if_pos hp, he]
        exact ⟨_, rfl⟩
      · rw [if_neg hp]
        exact ⟨_, rfl⟩

theorem explorarLoop_fuel (n m : Nat) (a : Sala) (b : PistaBST) (s : List Nat)
    (hn : s.length < n) (hm : s.length < m) : explorarLoop n a b s = explorarLoop m a b s := by
  induction n generalizing m a b s with
  | zero => omega
  | succ k ih =>
    cases m with
    | zero => omega
    | succ j =>
      cases a with
      | null => rfl
      | mk nome esq dir =>
        rw [explorarLoop_mk, explorarLoop_mk]
        by_cases hp : (iteracao nome esq dir b s).1 = true
        · have hlt := iteracao_stdin_lt nome esq dir b s hp
          rw [if_pos hp, if_pos hp, ih j _ _ _ (by omega) (by omega)]
        · rw [if_neg hp, if_neg hp]

theorem explorarSalas_total (raiz : Sala) (bst : PistaBST) (hashTable : HashTable)
    (stdin : List Nat) : ∃ e, explorarSalas raiz bst hashTable stdin = some e := by
  obtain ⟨e, he⟩ := explorarLoop_total (stdin.length + 1) raiz bst stdin (by omega)
  refine ⟨{ e with saida :=
    Out.exploracaoIniciada :: Out.comandos :: e.saida ++ [Out.exploracaoEncerrada] }, ?_⟩
  simp only [explorarSalas, he, Option.map_some']

theorem explorarSalas_estado (raiz : Sala) (bst : PistaBST) (hashTable : HashTable)
    (stdin : List Nat) :
    (explorarSalas raiz bst hashTable stdin).map (fun e => (e.atual, e.bst))
      = (explorarLoop (stdin.length + 1) raiz bst stdin).map (fun e => (e.atual, e.bst)) := by
  simp only [explorarSalas, Option.map_map]
  rfl

/-! ## C15: stop and the end of the input -/

theorem fgetsAux_append (s0 x : List Nat) (k : Nat) :
    fgetsAux k (s0 ++ [10] ++ x)
        = ((fgetsAux k (s0 ++ [10])).1, (fgetsAux k (s0 ++ [10])).2 ++ x) ∧
      ((fgetsAux k (s0 ++ [10])).2 = [] ∨ ∃ r0, (fgetsAux k (s0 ++ [10])).2 = r0 ++ [10]) := by
  induction s0 generalizing k with
  | nil =>
    cases k with
    | zero => exact ⟨rfl, Or.inr ⟨[], rfl⟩⟩
    | succ j => exact ⟨by simp [fgetsAux], Or.inl (by simp [fgetsAux])⟩
  | cons c cs ih =>
    cases k with
    | zero => exact ⟨rfl, Or.inr ⟨c :: cs, rfl⟩⟩
    | succ j =>
      by_cases hc : c = 10
      · subst hc
        exact ⟨by simp [fgetsAux], Or.inr ⟨cs, by simp [fgetsAux]⟩⟩
      · obtain ⟨h1, h2⟩ := ih j
        have e1 : fgetsAux (j + 1) (c :: cs ++ [10] ++ x)
            = (c :: (fgetsAux j (cs ++ [10] ++ x)).1, (fgetsAux j (cs ++ [10] ++ x)).2) := by
          simp [fgetsAux, hc]
        have e2 : fgetsAux (j + 1) (c :: cs ++ [10])
            = (c :: (fgetsAux j (cs ++ [10])).1, (fgetsAux j (cs ++ [10])).2) := by
          simp [fgetsAux, hc]
        rw [e1, e2, h1]
        exact ⟨rfl, h2⟩

theorem fgets_append (s0 x : List Nat) :
    ∃ chunk rem, fgets 8 (s0 ++ [10]) = some (chunk, rem) ∧
      fgets 8 (s0 ++ [10] ++ x) = some (chunk, rem ++ x) ∧
      (rem = [] ∨ ∃ r0, rem = r0 ++ [10]) := by
  obtain ⟨h1, h2⟩ := fgetsAux_append s0 x 7
  refine ⟨(fgetsAux 7 (s0 ++ [10])).1, (fgetsAux 7 (s0 ++ [10])).2, ?_, ?_, h2⟩
  · cases s0 <;> rfl
  · rw [← h1]
    cases s0 <;> rfl

theorem fluxo_terminado (cs : List (List Nat)) :
    fluxo cs = [] ∨ ∃ s0, fluxo cs = s0 ++ [10] := by
  induction cs with
  | nil => exact Or.inl rfl
  | cons l ls ih =>
    right
    rcases ih with h | ⟨s1, h⟩
    · exact ⟨l, by simp [fluxo] at h ⊢; simp [h]⟩
    · refine ⟨l ++ [10] ++ s1, ?_⟩
      simp only [fluxo, List.flatMap_cons] at h ⊢
      rw [h]
      simp

/-- A stream made of whole lines, followed by a stop line and anything after it, ends
the loop in the room and with the ledger in which the lines alone end it. -/
theorem parar_terminal (parar rest : List Nat)
    (hp : fgets 8 (parar ++ rest) = some (parar, rest)) (hc : lerComando parar = 115) :
    ∀ (n : Nat) (s : List Nat) (a : Sala) (b : PistaBST), s.length < n →
      (s = [] ∨ ∃ s0, s = s0 ++ [10]) → ∀ m : Nat, (s ++ (parar ++ rest)).length < m →
        (explorarLoop m a b (s ++ (parar ++ rest))).map (fun e => (e.atual, e.bst))
          = (explorarLoop n a b s).map (fun e => (e.atual, e.bst)) := by
  intro n
  induction n with
  | zero => intro s a b hs; omega
  | succ k ih =>
    intro s a b hs ht m hm
    cases m with
    | zero => omega
    | succ j =>
      cases a with
      | null => rfl
      | mk nome esq dir =>
        rw [explorarLoop_mk, explorarLoop_mk]
        rcases ht with rfl | ⟨s0, rfl⟩
        · have h1 : iteracao nome esq dir b ([] ++ (parar ++ rest))
              = passoDoComando Comando.sair nome esq dir b rest := by
            rw [List.nil_append, iteracao_eq_passo nome esq dir b _ _ _ hp, hc]
            rfl
          have h2 : iteracao nome esq dir b []
              = (false, ⟨.mk nome esq dir, (coletar b (regraPista nome)).1, [],
                  Out.voceEstaNaSala nome :: (coletar b (regraPista nome)).2
                    ++ [Out.escolhaPrompt]⟩) := rfl
          rw [h1, h2]
          rfl
        · obtain ⟨chunk, rem, hf1, hf2, hrem⟩ := fgets_append s0 (parar ++ rest)
          have hlt : rem.length < (s0 ++ [10]).length := fgets_resto_lt hf1
          rw [iteracao_eq_passo nome esq dir b _ _ _ hf1,
            iteracao_eq_passo nome esq dir b _ _ _ hf2,
            passoDoComando_resto _ _ _ _ _ rem, passoDoComando_resto _ _ _ _ _ (rem ++ _)]
          by_cases hflag : (passoDoComando (comandoDoByte (lerComando chunk)) nome esq dir b []).1
              = true
          · simp only [hflag, if_true, Option.map_map]
            have hlen : (rem ++ (parar ++ rest)).length < j := by
              simp only [List.length_append] at hm hlt ⊢
              omega
            have := ih rem
              (passoDoComando (comandoDoByte (lerComando chunk)) nome esq dir b []).2.atual
              (passoDoComando (comandoDoByte (lerComando chunk)) nome esq dir b []).2.bst
              (by omega) hrem j hlen
            exact this
          · simp only [hflag, Option.map_some']
            rfl

/-- C15: for every sequence of input lines `cs` and every continuation `rest`, the
exploration from the Hall on `cs`, then a stop line (`s` or `S`), then `rest`, ends in
the same room with the same ledger as the exploration on `cs` alone, which runs until
the stream is exhausted: nothing after the stop has an effect, and the failed read at
the end of the stream ends the loop as a stop does. For every room, ledger and finite
stream the loop ends: `explorarSalas` gives a result. -/
theorem C15_stop_and_exhaustion (cs : List (List Nat)) (rest : List Nat) :
    (explorarSalas hall .nil hashTableMain (fluxo cs ++ (lit "s\n" ++ rest))).map
        (fun e => (e.atual, e.bst))
        = (explorarSalas hall .nil hashTableMain (fluxo cs)).map (fun e => (e.atual, e.bst)) ∧
      (explorarSalas hall .nil hashTableMain (fluxo cs ++ (lit "S\n" ++ rest))).map
        (fun e => (e.atual, e.bst))
        = (explorarSalas hall .nil hashTableMain (fluxo cs)).map (fun e => (e.atual, e.bst)) ∧
      (∃ e, explorarSalas hall .nil hashTableMain (fluxo cs) = some e) ∧
      (∀ (raiz : Sala) (bst : PistaBST) (hashTable : HashTable) (stdin : List Nat),
        ∃ e, explorarSalas raiz bst hashTable stdin = some e) := by
  refine ⟨?_, ?_, explorarSalas_total _ _ _ _, fun raiz bst hashTable stdin =>
    explorarSalas_total raiz bst hashTable stdin⟩
  · rw [explorarSalas_estado, explorarSalas_estado]
    exact parar_terminal (lit "s\n") rest rfl (by decide) _ (fluxo cs) hall .nil
      (by omega) (fluxo_terminado cs) _ (by omega)
  · rw [explorarSalas_estado, explorarSalas_estado]
    exact parar_terminal (lit "S\n") rest rfl (by decide) _ (fluxo cs) hall .nil
      (by omega) (fluxo_terminado cs) _ (by omega)

/-! ## C14: two sessions -/

set_option maxRecDepth 100000 in
/-- C14: the result of `explorarSalas` does not depend on the table it is given (it is
a function of the map, the ledger it starts with and the stream). Session 3a (`e, s`
from the Hall, empty ledger) ends in the Biblioteca with its two clues and leaves the
lines of session 3b in the stream; session 3b, run next from the Hall with a fresh
empty ledger on what is left, gives exactly the result of `d, s` run on its own: it
ends in the Sala de Jantar, and its ledger holds the clues of the Hall and of the Sala
de Jantar and not the clue `fio de seda vermelho` of session 3a. -/
theorem C14_session_isolation :
    (∀ (raiz : Sala) (bst : PistaBST) (t1 t2 : HashTable) (stdin : List Nat),
        explorarSalas raiz bst t1 stdin = explorarSalas raiz bst t2 stdin) ∧
      (explorarSalas hall .nil hashTableMain (lit "e\ns\nd\ns\n")).map
          (fun e => (e.atual, textos e.bst, e.stdin))
        = some (biblioteca, [lit "fio de seda vermelho", lit "pegada de bota molhada"],
            lit "d\ns\n") ∧
      (explorarSalas hall .nil hashTableMain (lit "e\ns\nd\ns\n")).bind
          (fun e => explorarSalas hall .nil hashTableMain e.stdin)
        = explorarSalas hall .nil hashTableMain (lit "d\ns\n") ∧
      ((explorarSalas hall .nil hashTableMain (lit "e\ns\nd\ns\n")).bind
          (fun e => explorarSalas hall .nil hashTableMain e.stdin)).map
          (fun e => (e.atual, textos e.bst, e.stdin))
        = some (salaJantar,
            [lit "marca de copo com monograma", lit "pegada de bota molhada"], []) ∧
      lit "fio de seda vermelho"
        ∉ [lit "marca de copo com monograma", lit "pegada de bota molhada"] := by
  refine ⟨fun _ _ _ _ _ => rfl, ?_, ?_, ?_, ?_⟩ <;> decide

/-! ## The states of a session of `main` -/

theorem salasVisitadas_append (l1 l2 : List Out) :
    salasVisitadas (l1 ++ l2) = salasVisitadas l1 ++ salasVisitadas l2 := by
  induction l1 with
  | nil => rfl
  | cons o os ih => cases o <;> simp [salasVisitadas, ih]

theorem salasVisitadas_inserir (t : PistaBST) (c : CStr) :
    salasVisitadas (inserirPista t c).2 = [] := by
  induction t with
  | nil =>
    rw [inserirPista_nil]
    split_ifs <;> rfl
  | node p esq dir ihe ihd =>
    rw [inserirPista_node]
    split_ifs
    · rfl
    · rfl
    · exact ihe
    · exact ihd

theorem salasVisitadas_coletar (b : PistaBST) (c : CStr) :
    salasVisitadas (coletar b c).2 = [] := by
  unfold coletar
  split_ifs
  · simp [salasVisitadas, salasVisitadas_inserir]
  · rfl
  · rfl

/-- What one pass does to the room, the ledger and the list of rooms announced. -/
theorem passo_casos (nome : CStr) (esq dir : Sala) (b : PistaBST) (stdin : List Nat) :
    (iteracao nome esq dir b stdin).2.bst = (coletar b (regraPista nome)).1 ∧
      salasVisitadas (iteracao nome esq dir b stdin).2.saida = [nome] ∧
      ((iteracao nome esq dir b stdin).2.atual = .mk nome esq dir ∨
        ((iteracao nome esq dir b stdin).1 = true ∧
          (iteracao nome esq dir b stdin).2.atual = esq ∧ esq ≠ .null) ∨
        ((iteracao nome esq dir b stdin).1 = true ∧
          (iteracao nome esq dir b stdin).2.atual = dir ∧ dir ≠ .null)) := by
  cases hf : fgets 8 stdin with
  | none =>
    simp [iteracao, hf, salasVisitadas, salasVisitadas_append, salasVisitadas_coletar]
  | some r =>
    obtain ⟨escolha, resto⟩ := r
    rw [iteracao_eq_passo nome esq dir b stdin escolha resto hf]
    unfold passoDoComando
    cases comandoDoByte (lerComando escolha)
    · cases esq <;>
        simp [salasVisitadas, salasVisitadas_append, salasVisitadas_coletar]
    · cases dir <;>
        simp [salasVisitadas, salasVisitadas_append, salasVisitadas_coletar]
    · simp [salasVisitadas, salasVisitadas_append, salasVisitadas_coletar]
    · simp [salasVisitadas, salasVisitadas_append, salasVisitadas_coletar]

set_option maxRecDepth 100000 in
/-- The entries are closed under the moves: a child of the room of an entry, with the
ledger after the clue check of that room, is an entry, and it is not less deep. -/
theorem entradas_fechadas :
    ∀ x ∈ entradas, x.1 ≠ .null ∧
      (esqDe x.1 = .null ∨ ((esqDe x.1, depois x) ∈ entradas ∧
        profundidade hall (nomeDe x.1) ≤ profundidade hall (nomeDe (esqDe x.1)))) ∧
      (dirDe x.1 = .null ∨ ((dirDe x.1, depois x) ∈ entradas ∧
        profundidade hall (nomeDe x.1) ≤ profundidade hall (nomeDe (dirDe x.1)))) := by
  decide

theorem getLast?_cons_of_some {α : Type} (a z : α) (l : List α) (h : l.getLast? = some z) :
    (a :: l).getLast? = some z := by
  cases l with
  | nil => simp at h
  | cons b bs => rw [List.getLast?_cons_cons]; exact h

/-- From a room of an entry, with the ledger of the entry before or after the clue
check, the loop ends at the room of an entry with the ledger after its clue check; the
rooms announced never get less deep and the last one is the room where the loop ends. -/
theorem explorarLoop_invariante (n : Nat) (a : Sala) (b : PistaBST) (s : List Nat)
    (hs : s.length < n) (hcab : ∃ x ∈ entradas, a = x.1 ∧ (b = x.2 ∨ b = depois x)) :
    ∃ e, explorarLoop n a b s = some e ∧
      (∃ y ∈ entradas, e.atual = y.1 ∧ e.bst = depois y) ∧
      ((salasVisitadas e.saida).map (profundidade hall)).Pairwise (fun p q => p ≤ q) ∧
      (∀ v ∈ salasVisitadas e.saida,
        profundidade hall (nomeDe a) ≤ profundidade hall v) ∧
      (salasVisitadas e.saida).getLast? = some (nomeDe e.atual) := by
  induction n generalizing a b s with
  | zero => omega
  | succ k ih =>
    obtain ⟨x, hx, ha, hb⟩ := hcab
    obtain ⟨hnn, hesq, hdir⟩ := entradas_fechadas x hx
    cases hxa : x.1 with
    | null => exact absurd hxa hnn
    | mk nome esq dir =>
      rw [hxa] at ha
      subst ha
      have hdx : depois x = (coletar x.2 (regraPista nome)).1 := by
        unfold depois
        rw [hxa]
        rfl
      have hdep : (coletar b (regraPista nome)).1 = depois x := by
        rcases hb with hb | hb
        · rw [hb, hdx]
        · rw [hb, hdx]
          exact coletar_idem x.2 (regraPista_short nome)
      obtain ⟨hbst, hvis, hat⟩ := passo_casos nome esq dir b s
      rw [hdep] at hbst
      rw [explorarLoop_mk]
      by_cases hp : (iteracao nome esq dir b s).1 = true
      · rw [if_pos hp]
        have hlt := iteracao_stdin_lt nome esq dir b s hp
        have key : (∃ y ∈ entradas, (iteracao nome esq dir b s).2.atual = y.1 ∧
            ((iteracao nome esq dir b s).2.bst = y.2 ∨
              (iteracao nome esq dir b s).2.bst = depois y)) ∧
            profundidade hall nome
              ≤ profundidade hall (nomeDe (iteracao nome esq dir b s).2.atual) := by
          rcases hat with h | ⟨-, h, hne⟩ | ⟨-, h, hne⟩
          · refine ⟨⟨x, hx, by rw [h, hxa], Or.inr hbst⟩, ?_⟩
            rw [h]
            exact le_refl _
          · rw [hxa] at hesq
            rcases hesq with h0 | ⟨hmem, hprof⟩
            · exact absurd h0 hne
            · refine ⟨⟨(esq, depois x), hmem, h, Or.inl hbst⟩, ?_⟩
              rw [h]
              exact hprof
          · rw [hxa] at hdir
            rcases hdir with h0 | ⟨hmem, hprof⟩
            · exact absurd h0 hne
            · refine ⟨⟨(dir, depois x), hmem, h, Or.inl hbst⟩, ?_⟩
              rw [h]
              exact hprof
        obtain ⟨e, he, hfin, hpw, hge, hlast⟩ := ih (iteracao nome esq dir b s).2.atual
          (iteracao nome esq dir b s).2.bst (iteracao nome esq dir b s).2.stdin (by omega) key.1
        rw [he]
        refine ⟨_, rfl, hfin, ?_, ?_, ?_⟩
        · simp only [salasVisitadas_append, hvis, List.singleton_append, List.map_cons,
            List.pairwise_cons]
          refine ⟨?_, hpw⟩
          intro q hq
          obtain ⟨v, hv, rfl⟩ := List.mem_map.mp hq
          exact le_trans key.2 (hge v hv)
        · simp only [salasVisitadas_append, hvis, List.singleton_append, List.mem_cons]
          rintro v (hv | hv)
          · rw [hv]
            exact le_refl _
          · exact le_trans key.2 (hge v hv)
        · simp only [salasVisitadas_append, hvis, List.singleton_append]
          exact getLast?_cons_of_some _ _ _ hlast
      · rw [if_neg hp]
        have hatual : (iteracao nome esq dir b s).2.atual = .mk nome esq dir := by
          rcases hat with h | ⟨h, -, -⟩ | ⟨h, -, -⟩
          · exact h
          · exact absurd h hp
          · exact absurd h hp
        refine ⟨_, rfl, ⟨x, hx, by rw [hatual, hxa], hbst⟩, ?_, ?_, ?_⟩
        · rw [hvis]
          simp
        · rw [hvis]
          intro v hv
          rw [List.mem_singleton.mp hv]
          exact le_refl _
        · rw [hvis, hatual]
          rfl

/-- Every session of `main` ends at the room of an entry with the ledger after its clue
check. -/
theorem sessao_final (stdin : List Nat) :
    ∃ e, explorarSalas hall .nil hashTableMain stdin = some e ∧
      (∃ y ∈ entradas, e.atual = y.1 ∧ e.bst = depois y) ∧
      ((salasVisitadas e.saida).map (profundidade hall)).Pairwise (fun p q => p ≤ q) ∧
      (salasVisitadas e.saida).getLast? = some (nomeDe e.atual) := by
  obtain ⟨e, he, hfin, hpw, -, hlast⟩ := explorarLoop_invariante (stdin.length + 1) hall .nil
    stdin (by omega) ⟨(hall, .nil), by decide, rfl, Or.inl rfl⟩
  refine ⟨{ e with saida :=
    Out.exploracaoIniciada :: Out.comandos :: e.saida ++ [Out.exploracaoEncerrada] }, ?_,
    hfin, ?_, ?_⟩
  · simp only [explorarSalas, he, Option.map_some']
  · simpa [salasVisitadas, salasVisitadas_append] using hpw
  · simpa [salasVisitadas, salasVisitadas_append] using hlast

/-! ## C18: the ledger follows the path -/

set_option maxRecDepth 100000 in
theorem entradas_caminho :
    ∀ y ∈ entradas, y.1 ∈ salasDe hall ∧
      (∀ c ∈ textos (depois y), c ∈ (caminho hall (nomeDe y.1)).map regraPista) ∧
      (∀ c ∈ (caminho hall (nomeDe y.1)).map regraPista, c ∈ textos (depois y)) ∧
      numNos (depois y) = profundidade hall (nomeDe y.1) + 1 ∧
      1 ≤ numNos (depois y) ∧ numNos (depois y) ≤ 3 := by
  decide

/-- C18: for every input stream (so for every command sequence and every initial part
of it, the end of the stream standing for the moment the next command is awaited), the
exploration of the map of `main` from the Hall with the empty ledger ends at a room of
the map; the rooms it announces, pass after pass, never get less deep and the last one
is the room where it ends; the texts of the ledger are exactly the clues that the room
rules give to the rooms on the way from the Hall to that room; and the ledger has
depth + 1 nodes, at least 1 and at most 3. -/
theorem C18_path_invariant (stdin : List Nat) :
    ∃ e, explorarSalas hall .nil hashTableMain stdin = some e ∧
      e.atual ∈ salasDe hall ∧
      ((salasVisitadas e.saida).map (profundidade hall)).Pairwise (fun p q => p ≤ q) ∧
      (salasVisitadas e.saida).getLast? = some (nomeDe e.atual) ∧
      (∀ c, c ∈ textos e.bst ↔ c ∈ (caminho hall (nomeDe e.atual)).map regraPista) ∧
      numNos e.bst = profundidade hall (nomeDe e.atual) + 1 ∧
      1 ≤ numNos e.bst ∧ numNos e.bst ≤ 3 := by
  obtain ⟨e, he, ⟨y, hy, hat, hbst⟩, hpw, hlast⟩ := sessao_final stdin
  obtain ⟨h1, h2, h3, h4, h5, h6⟩ := entradas_caminho y hy
  refine ⟨e, he, ?_, hpw, hlast, ?_, ?_, ?_, ?_⟩
  · rw [hat]; exact h1
  · intro c
    rw [hat, hbst]
    exact ⟨h2 c, h3 c⟩
  · rw [hat, hbst]; exact h4
  · rw [hbst]; exact h5
  · rw [hbst]; exact h6

/-! ## C19 and C20: the suspects of the clues of a session -/

set_option maxRecDepth 100000 in
theorem entradas_suspeitos :
    ∀ y ∈ entradas,
      (∀ c ∈ textos (depois y), ∃ s ∈ tresSuspeitos,
        encontrarSuspeito hashTableMain c = some s) ∧
      (∀ s ∈ tresSuspeitos,
        contarPistasParaSuspeito (depois y) hashTableMain s ≤ 2 ∧
          (2 ≤ contarPistasParaSuspeito (depois y) hashTableMain s
            ↔ (nomeDe y.1, s) ∈ paresSustentados)) ∧
      depois y ≠ .nil := by
  decide

theorem contar_zero (b : PistaBST) (x : CStr)
    (h : ∀ c ∈ textos b, ∃ s ∈ tresSuspeitos, encontrarSuspeito hashTableMain c = some s)
    (hx : x ∉ tresSuspeitos) : contarPistasParaSuspeito b hashTableMain x = 0 := by
  rw [contar_eq_countP, List.countP_eq_zero]
  intro c hc
  obtain ⟨s, hs, hfind⟩ := h c hc
  simp only [decide_eq_true_eq, hfind, Option.some.injEq]
  intro hsx
  exact hx (hsx ▸ hs)

/-- For a ledger that is not empty, the sustained verdict for the name of an accusation
line is printed exactly when the count for that name is at least 2. -/
theorem sustentada_iff_contagem (p : CStr) (esq dir : PistaBST) (hashTable : HashTable)
    (nome resto : List Nat) (hn : ∀ b ∈ nome, b ≠ 0 ∧ b ≠ 10) (hlen : nome.length < MAX_STR) :
    Out.acusacaoSustentada nome
        ∈ (verificarSuspeitoFinal (.node p esq dir) hashTable (nome ++ 10 :: resto)).2
      ↔ 2 ≤ contarPistasParaSuspeito (.node p esq dir) hashTable nome := by
  obtain ⟨r, hr, hnome⟩ := acusado_da_linha nome resto hn hlen
  simp only [verificarSuspeitoFinal, hr, hnome, ge_iff_le, listar_eq_map]
  by_cases h2 : 2 ≤ contarPistasParaSuspeito (.node p esq dir) hashTable nome
  · simp [h2]
  · simp [h2]

/-- C19: for every input stream and every accused name, after the exploration of the
map of `main` from the Hall with the empty ledger, the count of the clues that point
to the accused is at most 2, and it reaches 2 (the sustained verdict) exactly when the
room where the exploration ended and the accused are Quarto Principal and `Maria`,
Cozinha and `Carlos`, or Jardim and `Joao`; it stays below 2 when the exploration ends
at Hall, Biblioteca, Sala de Jantar or Escritório. For an accusation line with that
name (shorter than `MAX_STR`, no NUL), `verificarSuspeitoFinal` prints the sustained
verdict exactly in those three cases. -/
theorem C19_sustained_accusation (stdin : List Nat) (acusado : CStr) :
    ∃ e, explorarSalas hall .nil hashTableMain stdin = some e ∧
      contarPistasParaSuspeito e.bst hashTableMain acusado ≤ 2 ∧
      (2 ≤ contarPistasParaSuspeito e.bst hashTableMain acusado
        ↔ (nomeDe e.atual, acusado) ∈ paresSustentados) ∧
      (nomeDe e.atual ∈ [lit "Hall", lit "Biblioteca", lit "Sala de Jantar", lit "Escritório"]
        → contarPistasParaSuspeito e.bst hashTableMain acusado < 2) ∧
      (∀ resto : List Nat, (∀ b ∈ acusado, b ≠ 0 ∧ b ≠ 10) → acusado.length < MAX_STR →
        (Out.acusacaoSustentada acusado
            ∈ (verificarSuspeitoFinal e.bst hashTableMain (acusado ++ 10 :: resto)).2
          ↔ (nomeDe e.atual, acusado) ∈ paresSustentados)) := by
  obtain ⟨e, he, ⟨y, hy, hat, hbst⟩, -, -⟩ := sessao_final stdin
  obtain ⟨hsus, htab, hnil⟩ := entradas_suspeitos y hy
  have hcount : contarPistasParaSuspeito e.bst hashTableMain acusado ≤ 2 ∧
      (2 ≤ contarPistasParaSuspeito e.bst hashTableMain acusado
        ↔ (nomeDe e.atual, acusado) ∈ paresSustentados) := by
    rw [hat, hbst]
    by_cases hx : acusado ∈ tresSuspeitos
    · exact htab acusado hx
    · rw [contar_zero (depois y) acusado hsus hx]
      refine ⟨by omega, ?_⟩
      constructor
      · intro h; omega
      · intro hmem
        exfalso
        have hsnd : ∀ q ∈ paresSustentados, q.2 ∈ tresSuspeitos := by decide
        exact hx (hsnd _ hmem)
  refine ⟨e, he, hcount.1, hcount.2, ?_, ?_⟩
  · intro hroom
    have hdisj : ∀ n ∈ [lit "Hall", lit "Biblioteca", lit "Sala de Jantar", lit "Escritório"],
        ∀ q ∈ paresSustentados, q.1 ≠ n := by decide
    by_contra hlt
    have hmem := hcount.2.mp (by omega)
    exact hdisj _ hroom _ hmem rfl
  · intro resto hn hlen
    rw [← hcount.2]
    have hne : e.bst ≠ .nil := by rw [hbst]; exact hnil
    cases hb : e.bst with
    | nil => exact absurd hb hne
    | node p esq dir => exact sustentada_iff_contagem p esq dir hashTableMain acusado resto hn hlen

set_option maxRecDepth 100000 in
theorem suspeitos_distintos :
    lit "Joao" ≠ lit "Maria" ∧ lit "Joao" ≠ lit "Carlos" ∧ lit "Maria" ≠ lit "Carlos" := by
  decide

/-- In a ledger whose clues all have one of the three suspects, the three counts add up
to the number of nodes. -/
theorem soma_contagens (b : PistaBST)
    (h : ∀ c ∈ textos b, ∃ s ∈ tresSuspeitos, encontrarSuspeito hashTableMain c = some s) :
    contarPistasParaSuspeito b hashTableMain (lit "Joao")
        + contarPistasParaSuspeito b hashTableMain (lit "Maria")
        + contarPistasParaSuspeito b hashTableMain (lit "Carlos")
      = numNos b := by
  induction b with
  | nil => rfl
  | node p esq dir ihe ihd =>
    have he := ihe (fun c hc => h c (by simp [textos, hc]))
    have hd := ihd (fun c hc => h c (by simp [textos, hc]))
    obtain ⟨s, hs, hfind⟩ := h p (by simp [textos])
    obtain ⟨h1, h2, h3⟩ := suspeitos_distintos
    simp only [contarPistasParaSuspeito, numNos, hfind, strcmp_eq_zero_iff]
    simp only [tresSuspeitos, List.mem_cons, List.mem_singleton, List.not_mem_nil,
      or_false] at hs
    rcases hs with hs | hs | hs
    · subst hs
      simp only [if_true, if_neg h1, if_neg h2]
      omega
    · subst hs
      simp only [if_true, if_neg h1.symm, if_neg h3]
      omega
    · subst hs
      simp only [if_true, if_neg h2.symm, if_neg h3.symm]
      omega

set_option maxRecDepth 100000 in
theorem regras_e_chaves :
    hashTableMain = inserirTodasNaHash tabelaVazia paresMain ∧
      (∀ k ∈ paresMain.map Prod.fst,
        ∃ nome ∈ (salasDe hall).map nomeDe, regraPista nome = k) ∧
      (∀ nome ∈ (salasDe hall).map nomeDe, regraPista nome ∈ paresMain.map Prod.fst) ∧
      (∀ k ∈ paresMain.map Prod.fst, ∃ s ∈ tresSuspeitos,
        encontrarSuspeito hashTableMain k = some s) := by
  decide

theorem regraPista_chave (nome : CStr) :
    regraPista nome = [] ∨ regraPista nome ∈ paresMain.map Prod.fst := by
  unfold regraPista
  split_ifs
  · right; decide
  · right; decide
  · right; decide
  · right; decide
  · right; decide
  · right; decide
  · right; decide
  · left; rfl

/-- C20: the table of `main` is the result of inserting the seven pairs of `main`;
every clue text that the room rules produce, for any room name, is byte for byte one
of the seven keys, each key is the clue of a room of the map, and `encontrarSuspeito`
gives for it one of `Joao`, `Maria`, `Carlos`, never absent. For every input stream,
every clue in the ledger of the session has one of the three suspects and the counts
for `Joao`, `Maria` and `Carlos` add up to the number of clues in the ledger; the same
sum holds for every ledger whose texts are clues of the rules. -/
theorem C20_rules_and_index_agree (stdin : List Nat) (nome : CStr) :
    hashTableMain = inserirTodasNaHash tabelaVazia paresMain ∧
      (regraPista nome = [] ∨
        (regraPista nome ∈ paresMain.map Prod.fst ∧
          ∃ s ∈ tresSuspeitos, encontrarSuspeito hashTableMain (regraPista nome) = some s)) ∧
      (∀ k ∈ paresMain.map Prod.fst,
        ∃ sala ∈ (salasDe hall).map nomeDe, regraPista sala = k) ∧
      (∃ e, explorarSalas hall .nil hashTableMain stdin = some e ∧
        (∀ c ∈ textos e.bst, ∃ s ∈ tresSuspeitos,
          encontrarSuspeito hashTableMain c = some s) ∧
        contarPistasParaSuspeito e.bst hashTableMain (lit "Joao")
            + contarPistasParaSuspeito e.bst hashTableMain (lit "Maria")
            + contarPistasParaSuspeito e.bst hashTableMain (lit "Carlos")
          = numNos e.bst) ∧
      (∀ b : PistaBST, (∀ c ∈ textos b, ∃ sala : CStr, c = regraPista sala ∧ c ≠ []) →
        contarPistasParaSuspeito b hashTableMain (lit "Joao")
            + contarPistasParaSuspeito b hashTableMain (lit "Maria")
            + contarPistasParaSuspeito b hashTableMain (lit "Carlos")
          = numNos b) := by
  obtain ⟨htab, hrooms, -, hkeys⟩ := regras_e_chaves
  have hregra : ∀ sala : CStr, regraPista sala = [] ∨
      (regraPista sala ∈ paresMain.map Prod.fst ∧
        ∃ s ∈ tresSuspeitos, encontrarSuspeito hashTableMain (regraPista sala) = some s) := by
    intro sala
    rcases regraPista_chave sala with h | h
    · exact Or.inl h
    · exact Or.inr ⟨h, hkeys _ h⟩
  refine ⟨htab, hregra nome, hrooms, ?_, ?_⟩
  · obtain ⟨e, he, ⟨y, hy, -, hbst⟩, -, -⟩ := sessao_final stdin
    obtain ⟨hsus, -, -⟩ := entradas_suspeitos y hy
    refine ⟨e, he, ?_, ?_⟩
    · rw [hbst]; exact hsus
    · rw [hbst]; exact soma_contagens (depois y) hsus
  · intro b hb
    apply soma_contagens
    intro c hc
    obtain ⟨sala, hsala, hne⟩ := hb c hc
    rcases hregra sala with h | ⟨-, h⟩
    · exact absurd (hsala.trans h) hne
    · rw [hsala]; exact h

/-! ## C12: an invalid command -/

set_option maxRecDepth 100000 in
/-- C12, as stated, fails: at the Hall, the line `xxxxxxxe`, whose first byte that is
not white space is `x` (an invalid command), is read in two passes; the first prints
the invalid-command notice and leaves `e` and the newline in the stream, the second
moves left, so after the line the explorer is in the Biblioteca and the ledger has the
clue of the Biblioteca as well. -/
theorem C12_counterexample :
    comandoDaLinha (lit "xxxxxxxe") = Comando.invalido ∧
      (iteracao (lit "Hall") biblioteca salaJantar .nil (lit "xxxxxxxe\n")).2.stdin
        = lit "e\n" ∧
      (iteracao (lit "Hall") biblioteca salaJantar .nil (lit "xxxxxxxe\n")).2.saida.getLast?
        = some Out.comandoInvalido ∧
      (explorarSalas hall .nil hashTableMain (lit "xxxxxxxe\n")).map
          (fun e => (e.atual, textos e.bst, e.stdin))
        = some (biblioteca, [lit "fio de seda vermelho", lit "pegada de bota molhada"], []) := by
  decide

/-- C12 (amended to lines of at most 6 bytes before the newline, which with the
newline fit the buffer `escolha`): at every room and for every ledger, for every such
line whose command is none of `e`, `d`, `s` (the first byte that is not white space,
case-insensitively, is none of them, or there is no such byte, as in a blank line),
the pass consumes exactly the line, keeps the loop going at the same room and prints
after the prompt the invalid-command notice and nothing else; the ledger it leaves is
the ledger of the clue check of that room, and the clue check of the next pass at the
same room leaves that ledger as it is. The same holds for a non-empty last line that
the end of the stream closes. -/
theorem C12_invalid_command (nome : CStr) (esq dir : Sala) (bst : PistaBST)
    (linha resto : List Nat) (hn : ∀ b ∈ linha, b ≠ 10) (hlen : linha.length ≤ 6)
    (hcmd : comandoDaLinha linha = Comando.invalido) :
    iteracao nome esq dir bst (linha ++ 10 :: resto)
        = (true, ⟨.mk nome esq dir, (coletar bst (regraPista nome)).1, resto,
            Out.voceEstaNaSala nome :: (coletar bst (regraPista nome)).2
              ++ [Out.escolhaPrompt] ++ [Out.comandoInvalido]⟩) ∧
      (linha ≠ [] →
        iteracao nome esq dir bst linha
          = (true, ⟨.mk nome esq dir, (coletar bst (regraPista nome)).1, [],
              Out.voceEstaNaSala nome :: (coletar bst (regraPista nome)).2
                ++ [Out.escolhaPrompt] ++ [Out.comandoInvalido]⟩)) ∧
      (coletar (coletar bst (regraPista nome)).1 (regraPista nome)).1
        = (coletar bst (regraPista nome)).1 ∧
      (∀ s : List Nat,
        (iteracao nome esq dir (coletar bst (regraPista nome)).1 s).2.bst
          = (coletar bst (regraPista nome)).1) ∧
      comandoDaLinha [] = Comando.invalido := by
  have hidem := coletar_idem bst (regraPista_short nome)
  have hf := fgets_linha_curta linha resto hn hlen
  refine ⟨?_, ?_, hidem, ?_, rfl⟩
  · rw [iteracao_eq_passo nome esq dir bst _ _ _ hf, comandoDoByte_lerComando,
      comandoDaLinha_newline, hcmd]
    rfl
  · intro hne
    have hf2 : fgets 8 linha = some (linha, []) := by
      have : fgets 8 linha = some (fgetsAux 7 linha) := by
        cases linha with
        | nil => exact absurd rfl hne
        | cons a as => rfl
      rw [this, fgetsAux_fim 7 linha hn (by omega)]
    rw [iteracao_eq_passo nome esq dir bst _ _ _ hf2, comandoDoByte_lerComando, hcmd]
    rfl
  · intro s
    simp only [iteracao, hidem]
    cases fgets 8 s with
    | none => rfl
    | some r =>
      simp only
      split_ifs
      · rfl
      · cases esq <;> rfl
      · cases dir <;> rfl
      · rfl

set_option maxRecDepth 100000 in
theorem C12_invalid_command_witness :
    iteracao (lit "Hall") biblioteca salaJantar .nil ([32, 120] ++ 10 :: [101, 10])
        = (true, ⟨.mk (lit "Hall") biblioteca salaJantar,
            (coletar .nil (regraPista (lit "Hall"))).1, [101, 10],
            Out.voceEstaNaSala (lit "Hall") :: (coletar .nil (regraPista (lit "Hall"))).2
              ++ [Out.escolhaPrompt] ++ [Out.comandoInvalido]⟩) ∧
      (([32, 120] : List Nat) ≠ [] →
        iteracao (lit "Hall") biblioteca salaJantar .nil [32, 120]
          = (true, ⟨.mk (lit "Hall") biblioteca salaJantar,
              (coletar .nil (regraPista (lit "Hall"))).1, [],
              Out.voceEstaNaSala (lit "Hall") :: (coletar .nil (regraPista (lit "Hall"))).2
                ++ [Out.escolhaPrompt] ++ [Out.comandoInvalido]⟩)) ∧
      (coletar (coletar .nil (regraPista (lit "Hall"))).1 (regraPista (lit "Hall"))).1
        = (coletar .nil (regraPista (lit "Hall"))).1 ∧
      (∀ s : List Nat,
        (iteracao (lit "Hall") biblioteca salaJantar
            (coletar .nil (regraPista (lit "Hall"))).1 s).2.bst
          = (coletar .nil (regraPista (lit "Hall"))).1) ∧
      comandoDaLinha [] = Comando.invalido :=
  C12_invalid_command (lit "Hall") biblioteca salaJantar .nil [32, 120] [101, 10]
    (by decide) (by decide) (by decide)

end DetectiveQuest
